import Mathlib

/-!
# A shallow embedding of the command interpreter (executor.c, exec_builtin.c, exec_external.c)

Modelling conventions.

* A C string is the list of its characters before the terminating NUL (`CStr`).
  A `char *` that may be NULL is an `Option CStr`.
* The process-wide state is a `World`: the history buffer
  (`command_history[0 .. history_count)`) and the trace of the effects performed so far
  (system calls, children spawned, text printed), oldest first.
* Everything the operating system decides (whether `fork`, `pipe`, `open`, `chdir` succeed,
  what a file contains, how a child terminates) is read from an oracle `OS`, every field of
  which sees the trace so far.
* Heap allocation (`strdup`, `malloc`) is taken to succeed, and the command handed to
  execute_command is a string, not NULL; the branches the code takes only when an allocation
  fails or the pointer is NULL are not modelled.
* A child that calls `execvp` with a NULL program name (an empty argument vector) is taken to
  be killed by a signal: the C library reads the name through the pointer.
* The `int` counters of exec_count are natural numbers: files of `2^31` bytes or more, on which
  they would overflow, are outside the model.
-/

namespace Shell

/-- A C string: its characters before the terminating NUL. -/
abbrev CStr := List Char

/-! ## libc string helpers -/

/-- The test `strstr(s, "&&") != NULL`. -/
def strstr_andand : CStr → Bool
  | [] => false
  | c :: cs => (c == '&' && cs.head? == some '&') || strstr_andand cs

/-- The test `strchr(s, '|') != NULL`. -/
def strchr_pipe (s : CStr) : Bool := s.elem '|'

/-- The scanning loop of `strtok_r` with the one-character delimiter set `d`: `cur` holds the
characters of the token being scanned. A delimiter ends the current token when there is one
and is skipped otherwise, so runs of delimiters yield no empty token. -/
def strtok_scan (d : Char) : CStr → CStr → List CStr
  | cur, [] => if cur = [] then [] else [cur]
  | cur, c :: cs =>
    if c = d then
      (if cur = [] then strtok_scan d [] cs else cur :: strtok_scan d [] cs)
    else strtok_scan d (cur ++ [c]) cs

/-- All the tokens that `strtok_r(s, d, &save)` followed by `strtok_r(NULL, d, &save)` calls
return, in order, until NULL. -/
def strtok_all (d : Char) (s : CStr) : List CStr := strtok_scan d [] s

/-- The characters removed at the end of a piece:
`*end == ' ' || *end == '\n' || *end == '\r' || *end == '\t'`. -/
def is_trail_ws (c : Char) : Bool := c == ' ' || c == '\n' || c == '\r' || c == '\t'

/-- The trailing trim `while (end > tok && is_trail_ws(*end)) { *end = 0; end--; }` with
`end = tok + strlen(tok) - 1`: the guard `end > tok` never lets it remove the first character. -/
def trim_trailing : CStr → CStr
  | [] => []
  | c :: cs => c :: (cs.reverse.dropWhile is_trail_ws).reverse

/-! ## Splitting a chain (executor.c, lines 22-46) -/

/-- The size of the `parts` arrays. -/
def MAX_PARTS : Nat := 32

/-- The body of the chain splitting loop applied to one token: skip one leading ampersand,
skip leading spaces and tabs, trim the end. -/
def chain_trim (tok : CStr) : CStr :=
  let t0 := if tok.head? = some '&' then tok.drop 1 else tok
  let t1 := t0.dropWhile (fun c => c == ' ' || c == '\t')
  trim_trailing t1

/-- The loop `while (tok != NULL && pcount < 32)` over the tokens still to come, `parts` being
the pieces stored so far (`pcount = parts.length`). -/
def chain_collect : List CStr → List CStr → List CStr
  | [], parts => parts
  | tok :: rest, parts =>
    if parts.length < MAX_PARTS then
      let t := chain_trim tok
      chain_collect rest (if 0 < t.length then parts ++ [t] else parts)
    else parts

/-- The sub-commands `parts[0 .. pcount)` of a line that contains the chain operator. -/
def chain_parts (cmd : CStr) : List CStr :=
  chain_collect (strtok_all '&' cmd) []

/-! ## The count built-in (exec_builtin.c, lines 125-149) -/

/-- The value `EOF` of stdio. -/
def EOF : Int := -1

/-- The local variables of exec_count. -/
structure CountState where
  lines : Nat
  words : Nat
  chars : Nat
  in_word : Bool
  deriving DecidableEq, Repr

/-- One iteration of `while ((c = fgetc(fp)) != EOF)` for the byte `c`. -/
def count_step (s : CountState) (c : Nat) : CountState :=
  let s := { s with chars := s.chars + 1 }
  if c = 10 then { s with lines := s.lines + 1, in_word := false }
  else if c = 32 ∨ c = 9 ∨ c = 10 then { s with in_word := false }
  else if ¬ s.in_word then { s with words := s.words + 1, in_word := true }
  else s

/-- The counting part of exec_count on a file of the given bytes: the loop, then the two
adjustments after it. When the loop ends `c` holds `EOF`, and that is the value the test
`c != '\n'` reads. -/
def count_file (content : List Nat) : CountState :=
  let s := content.foldl count_step ⟨0, 0, 0, false⟩
  let c : Int := EOF
  let s := if s.in_word then { s with words := s.words + 1 } else s
  if 0 < s.chars ∧ c ≠ 10 then { s with lines := s.lines + 1 } else s

/-- The bytes of an ASCII text. -/
def bytes_of (s : String) : List Nat := s.toList.map Char.toNat

/-! ## The world: history buffer, effects, and the operating system -/

/-- A string literal of the source as a C string. -/
def cs (s : String) : CStr := s.toList

/-- The status `waitpid` stores: `exited code` when `WIFEXITED` holds (with `WEXITSTATUS`
equal to `code`), `killed` when the child did not exit normally. -/
inductive WaitStatus
  | exited (code : Fin 256)
  | killed
  deriving DecidableEq, Repr

/-- What `execvp` does in a child: it returns with `errno == ENOENT`, it returns with another
error, or the program runs and terminates with the given status. -/
inductive ExecOutcome
  | enoent
  | failed
  | ran (st : WaitStatus)
  deriving DecidableEq, Repr

/-- The two ways the code opens a file: `O_RDONLY` and `O_WRONLY | O_CREAT | O_TRUNC`. -/
inductive OpenMode
  | rdonly
  | wronly_creat_trunc
  deriving DecidableEq, Repr

/-- What a standard stream of a child is bound to: the shell's own stream, an end of the pipe
created in iteration `i` of the pipeline loop, or a file opened by the child. -/
inductive Stream
  | inherited
  | pipe_read (i : Nat)
  | pipe_write (i : Nat)
  | file (path : CStr) (mode : OpenMode)
  deriving DecidableEq, Repr

/-- A forked child at the point where it calls `execvp(argv[0], argv)` or `_exit`. -/
structure Child where
  stdin : Stream
  stdout : Stream
  argv : List CStr
  deriving DecidableEq, Repr

/-- What the built-ins print. -/
inductive Output
  | about_banner
  | help_text
  | clear_sequence
  | count_usage
  | count_cannot_open (path : CStr)
  | count_report (path : CStr) (lines words chars : Nat)
  | history_empty
  | history_list (entries : List CStr)
  | cd_home_not_set
  | cd_perror
  deriving DecidableEq, Repr

/-- The effects recorded in the trace. `call_builtin` and `call_external` record the entry
into exec_builtin and exec_external with their argument vector. -/
inductive Event
  | call_builtin (args : List CStr)
  | call_external (args : List CStr)
  | persist (command : CStr)
  | print (o : Output)
  | fopen (path : CStr) (ok : Bool)
  | chdir (path : CStr) (ok : Bool)
  | open_file (path : Option CStr) (mode : OpenMode) (ok : Bool)
  | pipe_created (i : Nat)
  | pipe_failed
  | fork_failed
  | spawn (c : Child)
  | reap (st : WaitStatus)
  deriving DecidableEq, Repr

/-- The answers of the operating system, each given the trace so far. -/
structure OS where
  fork_ok : List Event → Bool
  pipe_ok : List Event → Bool
  open_ok : List Event → CStr → OpenMode → Bool
  execvp : List Event → Child → ExecOutcome
  fopen : List Event → CStr → Option (List Nat)
  getenv_home : List Event → Option CStr
  chdir_ok : List Event → CStr → Bool

/-- The state of the shell process and the effects so far. -/
structure World where
  history : List CStr
  trace : List Event
  deriving DecidableEq, Repr

/-- Append one effect to the trace. -/
def World.log (w : World) (e : Event) : World := { w with trace := w.trace ++ [e] }

/-- The call `open(path, flags)`: a NULL path fails (EFAULT), any other is up to the system. -/
def sys_open (os : OS) (t : List Event) (path : Option CStr) (mode : OpenMode) : Bool :=
  match path with
  | none => false
  | some p => os.open_ok t p mode

/-- The status of a child that calls `execvp(argv[0], argv)` and, when that returns, `_exit(127)`
on ENOENT and `_exit(EXIT_FAILURE)` otherwise. With an empty vector `argv[0]` is NULL:
`execvp` reads the program name through the NULL pointer and the child is killed by a signal
(SIGSEGV), so it does not exit normally. -/
def exec_status (os : OS) (t : List Event) (c : Child) : WaitStatus :=
  match c.argv with
  | [] => WaitStatus.killed
  | _ :: _ =>
    match os.execvp t c with
    | ExecOutcome.enoent => WaitStatus.exited 127
    | ExecOutcome.failed => WaitStatus.exited 1
    | ExecOutcome.ran st => st

/-- The value `if (WIFEXITED(status)) return WEXITSTATUS(status); return -1;`. -/
def wait_result (st : WaitStatus) : Int :=
  match st with
  | WaitStatus.exited code => (code.val : Int)
  | WaitStatus.killed => -1

/-! ## History (exec_builtin.c, lines 8-46) -/

/-- The capacity of the history buffer. -/
def MAX_HISTORY : Nat := 50

/-- The function add_command_to_history; `persist_history_to_file` is the `persist` effect. -/
def add_command_to_history (command : CStr) (w : World) : World :=
  if command.length = 0 then w
  else if command = cs "history" ∨ command = cs "cd" then w
  else if w.history.length < MAX_HISTORY then
    ({ w with history := w.history ++ [command] } : World).log (Event.persist command)
  else w

/-! ## Built-ins (exec_builtin.c) -/

/-- The function exec_about. -/
def exec_about (_args : List CStr) (w : World) : Int × World :=
  (0, w.log (Event.print Output.about_banner))

/-- The function exec_help. -/
def exec_help (_args : List CStr) (w : World) : Int × World :=
  (0, w.log (Event.print Output.help_text))

/-- The function exec_clear. -/
def exec_clear (_args : List CStr) (w : World) : Int × World :=
  (0, w.log (Event.print Output.clear_sequence))

/-- The function exec_count: `args[1]` missing, file not opened, or the three counts. -/
def exec_count (os : OS) (args : List CStr) (w : World) : Int × World :=
  match args.get? 1 with
  | none => (1, w.log (Event.print Output.count_usage))
  | some path =>
    match os.fopen w.trace path with
    | none => (1, (w.log (Event.fopen path false)).log (Event.print (Output.count_cannot_open path)))
    | some content =>
      let s := count_file content
      (0, (w.log (Event.fopen path true)).log
            (Event.print (Output.count_report path s.lines s.words s.chars)))

/-- The function exec_history. -/
def exec_history (_args : List CStr) (w : World) : Int × World :=
  if w.history.length = 0 then (0, w.log (Event.print Output.history_empty))
  else (0, w.log (Event.print (Output.history_list w.history)))

/-- The function exec_cd. -/
def exec_cd (os : OS) (args : List CStr) (w : World) : Int × World :=
  match args.get? 1 with
  | none =>
    match os.getenv_home w.trace with
    | none => (1, w.log (Event.print Output.cd_home_not_set))
    | some path =>
      if os.chdir_ok w.trace path then (0, w.log (Event.chdir path true))
      else (1, (w.log (Event.chdir path false)).log (Event.print Output.cd_perror))
  | some dir =>
    if os.chdir_ok w.trace dir then (0, w.log (Event.chdir dir true))
    else (0, (w.log (Event.chdir dir false)).log (Event.print Output.cd_perror))

/-- The function exec_exit. -/
def exec_exit (_args : List CStr) (w : World) : Int × World := (0, w)

/-- The branches of the `strcmp` chain of exec_builtin. -/
inductive Builtin
  | about | help | clear | count | history | cd | exit
  deriving DecidableEq, Repr

/-- The `strcmp` chain of exec_builtin, in its order: the branch taken for `args[0]`, or `none`
when the chain falls through to the final `return 1`. -/
def builtin_branch (name : CStr) : Option Builtin :=
  if name = cs "about" then some Builtin.about
  else if name = cs "help" then some Builtin.help
  else if name = cs "clear" then some Builtin.clear
  else if name = cs "count" then some Builtin.count
  else if name = cs "history" then some Builtin.history
  else if name = cs "cd" then some Builtin.cd
  else if name = cs "exit" then some Builtin.exit
  else none

/-- The call made in a branch of exec_builtin. -/
def run_builtin (os : OS) (b : Builtin) (args : List CStr) (w : World) : Int × World :=
  match b with
  | Builtin.about => exec_about args w
  | Builtin.help => exec_help args w
  | Builtin.clear => exec_clear args w
  | Builtin.count => exec_count os args w
  | Builtin.history => exec_history args w
  | Builtin.cd => exec_cd os args w
  | Builtin.exit => exec_exit args w

/-- The function exec_builtin. -/
def exec_builtin (os : OS) (args : List CStr) (w : World) : Int × World :=
  let w := w.log (Event.call_builtin args)
  match args with
  | [] => (1, w)
  | name :: _ =>
    let w := add_command_to_history name w
    match builtin_branch name with
    | some b => run_builtin os b args w
    | none => (1, w)

/-! ## External programs (exec_external.c) -/

/-- The string built by the `strcat` loop: the arguments joined by single spaces. -/
def join_args : List CStr → CStr
  | [] => []
  | [a] => a
  | a :: b :: rest => a ++ ' ' :: join_args (b :: rest)

/-- The function exec_external. -/
def exec_external (os : OS) (args : List CStr) (w : World) : Int × World :=
  let w := w.log (Event.call_external args)
  match args with
  | [] => (-1, w)
  | _ :: _ =>
    let w := add_command_to_history (join_args args) w
    if os.fork_ok w.trace then
      let child : Child := ⟨Stream.inherited, Stream.inherited, args⟩
      let w := w.log (Event.spawn child)
      let st := exec_status os w.trace child
      (wait_result st, w.log (Event.reap st))
    else (-1, w.log Event.fork_failed)

/-! ## Single commands (executor.c, lines 184-299) -/

/-- The constant `MAX_ARGS`. -/
def MAX_ARGS : Nat := 256

/-- The loop `while (token != NULL && i < MAX_ARGS - 1)` over `strtok(cmd_copy, " ")`: the
vector `args[0 .. i)`. -/
def single_args (cmd : CStr) : List CStr := (strtok_all ' ' cmd).take (MAX_ARGS - 1)

/-- The assignment `arr[j] = v` on an array whose slots `0 .. arr.length` have been written
so far; the code only writes at an index `j ≤ arr.length`. -/
def store {α : Type} (arr : List α) (j : Nat) (v : α) : List α :=
  if j < arr.length then arr.set j v else arr ++ [v]

/-- The argument vector a NULL-terminated array holds: its entries before the first NULL. -/
def argv_of : List (Option CStr) → List CStr
  | some a :: rest => a :: argv_of rest
  | _ => []

/-- The loop `for (k = 1; args[k] != NULL && j < MAX_ARGS - 1; k++, j++) colored_args[j] = args[k]`,
given `args[k ..]`, `j` and the array; it returns the final `j` and the array. -/
def ls_copy : List CStr → Nat → List (Option CStr) → Nat × List (Option CStr)
  | [], j, arr => (j, arr)
  | a :: rest, j, arr =>
    if j < MAX_ARGS - 1 then ls_copy rest (j + 1) (store arr j (some a)) else (j, arr)

/-- The vector `colored_args` built in the `ls` branch (lines 203-210): slot 0 and slot 1 are
written, then the copy loop starts at `j = 1`, then `colored_args[j] = NULL`. -/
def ls_colored_args (args : List CStr) : List CStr :=
  let a0 := store [] 0 args.head?
  let a1 := store a0 1 (some (cs "--color=auto"))
  let r := ls_copy (args.drop 1) 1 a1
  argv_of (store r.2 r.1 none)

/-- The table `builtins[]` of execute_command. -/
def builtins : List CStr :=
  [cs "cd", cs "exit", cs "about", cs "help", cs "clear", cs "count", cs "history"]

/-- The scan `for (j = 0; builtins[j] != NULL; j++) if (strcmp(args[0], builtins[j]) == 0)`. -/
def is_builtin (name : CStr) : Bool := builtins.any (fun b => name = b)

/-- The variables the redirection loop of a single command updates: the vector `args[0 .. i)`
and the two descriptors (`none` for -1, otherwise the path that was opened). -/
structure RedirState where
  args : List CStr
  infd : Option CStr
  outfd : Option CStr
  deriving DecidableEq, Repr

/-- The loop `for (k = 0; k < i; k++)` of lines 238-255, from index `k`. An operator with a
token after it opens that token and the shift loop
`for (s = k; s + 2 <= i; s++) args[s] = args[s+2]; i -= 2;` removes the two entries; then `k++`.
The first argument bounds the number of iterations left; the initial `i` is enough, since `k`
grows by one each time and `i` never grows. -/
def redir_scan (os : OS) : Nat → Nat → RedirState → World → RedirState × World
  | 0, _, s, w => (s, w)
  | n + 1, k, s, w =>
    match s.args.get? k with
    | none => (s, w)
    | some a =>
      if a = cs ">" then
        match s.args.get? (k + 1) with
        | some f =>
          let ok := sys_open os w.trace (some f) OpenMode.wronly_creat_trunc
          redir_scan os n (k + 1)
            ⟨s.args.take k ++ s.args.drop (k + 2), s.infd, if ok then some f else none⟩
            (w.log (Event.open_file (some f) OpenMode.wronly_creat_trunc ok))
        | none => redir_scan os n (k + 1) s w
      else if a = cs "<" then
        match s.args.get? (k + 1) with
        | some f =>
          let ok := sys_open os w.trace (some f) OpenMode.rdonly
          redir_scan os n (k + 1)
            ⟨s.args.take k ++ s.args.drop (k + 2), if ok then some f else none, s.outfd⟩
            (w.log (Event.open_file (some f) OpenMode.rdonly ok))
        | none => redir_scan os n (k + 1) s w
      else redir_scan os n (k + 1) s w

/-- The stream a descriptor variable rebinds: the opened file when it is not -1. -/
def bind_fd (fd : Option CStr) (mode : OpenMode) (otherwise : Stream) : Stream :=
  match fd with
  | some p => Stream.file p mode
  | none => otherwise

/-- Lines 236-299: the redirection loop, then either the fork with the descriptors bound
(when one of them was opened) or the call of exec_external. -/
def execute_redirect (os : OS) (command : CStr) (args : List CStr) (w : World) : Int × World :=
  let r := redir_scan os args.length 0 ⟨args, none, none⟩ w
  let s := r.1
  let w := r.2
  if s.infd.isSome || s.outfd.isSome then
    let w := add_command_to_history command w
    if os.fork_ok w.trace then
      let child : Child :=
        ⟨bind_fd s.infd OpenMode.rdonly Stream.inherited,
         bind_fd s.outfd OpenMode.wronly_creat_trunc Stream.inherited, s.args⟩
      let w := w.log (Event.spawn child)
      let st := exec_status os w.trace child
      (wait_result st, w.log (Event.reap st))
    else (-1, w.log Event.fork_failed)
  else exec_external os s.args w

/-- Lines 184-299: a command with neither the chain operator nor a pipe. -/
def execute_single (os : OS) (command : CStr) (w : World) : Int × World :=
  let args := single_args command
  match args with
  | [] => (-1, w)
  | name :: _ =>
    if name = cs "ls" then exec_external os (ls_colored_args args) w
    else if is_builtin name then exec_builtin os args w
    else execute_redirect os command args w

/-! ## Pipelines (executor.c, lines 66-182) -/

/-- The body of the pipeline splitting loop applied to one token: skip leading spaces, trim the
end. -/
def pipe_trim (tok : CStr) : CStr :=
  trim_trailing (tok.dropWhile (fun c => c == ' '))

/-- The loop `while (tok != NULL && pcount < 32)` of lines 73-80 over the tokens still to
come: the stages stored, and the value `tok` is left with (NULL, or the token the loop did
not take because the array was full). -/
def pipe_collect : List CStr → List CStr → List CStr × Option CStr
  | [], parts => (parts, none)
  | tok :: rest, parts =>
    if parts.length < MAX_PARTS then pipe_collect rest (parts ++ [pipe_trim tok])
    else (parts, some tok)

/-- The variables of the token loop in a pipeline child: `argv[0 .. ai)`, `infd`, `outfd`. -/
structure StageState where
  argv : List CStr
  infd : Option CStr
  outfd : Option CStr
  deriving DecidableEq, Repr

/-- The loop `while (tk != NULL && ai < 255)` of lines 123-138 in a pipeline child, over the
tokens `tk` still to come. The two `open` calls are given `tok`, the variable of the enclosing
splitting loop, as their path. -/
def stage_scan (os : OS) (tok : Option CStr) : List CStr → StageState → World → StageState × World
  | [], s, w => (s, w)
  | tk :: rest, s, w =>
    if s.argv.length < MAX_ARGS - 1 then
      if tk = cs ">" then
        match rest with
        | [] => (s, w)
        | _ :: rest2 =>
          let ok := sys_open os w.trace tok OpenMode.wronly_creat_trunc
          stage_scan os tok rest2 ⟨s.argv, s.infd, if ok then tok else none⟩
            (w.log (Event.open_file tok OpenMode.wronly_creat_trunc ok))
      else if tk = cs "<" then
        match rest with
        | [] => (s, w)
        | _ :: rest2 =>
          let ok := sys_open os w.trace tok OpenMode.rdonly
          stage_scan os tok rest2 ⟨s.argv, if ok then tok else none, s.outfd⟩
            (w.log (Event.open_file tok OpenMode.rdonly ok))
      else stage_scan os tok rest ⟨s.argv ++ [tk], s.infd, s.outfd⟩ w
    else (s, w)

/-- The child of iteration `pi` (lines 104-161) up to its `execvp` or `_exit`: the pipe
bindings, then the token loop, then the bindings of `infd` and `outfd`. -/
def stage_child (os : OS) (tok : Option CStr) (pcount pi : Nat) (prev_fd : Option Nat)
    (part : CStr) (w : World) : Child × World :=
  let stdin0 := match prev_fd with
    | some i => Stream.pipe_read i
    | none => Stream.inherited
  let stdout0 := if pi < pcount - 1 then Stream.pipe_write pi else Stream.inherited
  let r := stage_scan os tok (strtok_all ' ' part) ⟨[], none, none⟩ w
  (⟨bind_fd r.1.infd OpenMode.rdonly stdin0,
    bind_fd r.1.outfd OpenMode.wronly_creat_trunc stdout0, r.1.argv⟩, r.2)

/-- The loop `for (pi = 0; pi < pcount; pi++)` of lines 87-170 from iteration `pi`, over the
stages still to launch; `prev_fd` is `none` for -1 and otherwise the pipe whose read end it is.
The result is `none` when `pipe` or `fork` failed (the function then returns -1) and the
children launched otherwise. -/
def pipeline_spawn (os : OS) (tok : Option CStr) (pcount : Nat) :
    Nat → List CStr → Option Nat → List Child → World → Option (List Child) × World
  | _, [], _, children, w => (some children, w)
  | pi, part :: rest, prev_fd, children, w =>
    if pi < pcount - 1 ∧ os.pipe_ok w.trace = false then (none, w.log Event.pipe_failed)
    else
      let w := if pi < pcount - 1 then w.log (Event.pipe_created pi) else w
      if os.fork_ok w.trace then
        let r := stage_child os tok pcount pi prev_fd part w
        let w := r.2.log (Event.spawn r.1)
        pipeline_spawn os tok pcount (pi + 1) rest
          (if pi < pcount - 1 then some pi else prev_fd) (children ++ [r.1]) w
      else (none, w.log Event.fork_failed)

/-- The status of a pipeline child: `_exit(0)` when it has no argument (`ai == 0`), otherwise
what `execvp` leads to. -/
def stage_status (os : OS) (t : List Event) (c : Child) : WaitStatus :=
  if c.argv.length = 0 then WaitStatus.exited 0 else exec_status os t c

/-- The loop of lines 173-178 over the children still to wait for:
`waitpid(children[i], &st, 0); if (WIFEXITED(st)) last_status = WEXITSTATUS(st);`. -/
def pipeline_wait (os : OS) : List Child → Int → World → Int × World
  | [], last_status, w => (last_status, w)
  | c :: rest, last_status, w =>
    let st := stage_status os w.trace c
    let w := w.log (Event.reap st)
    match st with
    | WaitStatus.exited code => pipeline_wait os rest (code.val : Int) w
    | WaitStatus.killed => pipeline_wait os rest last_status w

/-- Lines 66-182: a command that contains a pipe character. -/
def execute_pipeline (os : OS) (cmd : CStr) (w : World) : Int × World :=
  let split := pipe_collect (strtok_all '|' cmd) []
  let parts := split.1
  let r := pipeline_spawn os split.2 parts.length 0 parts none [] w
  match r.1 with
  | none => (-1, r.2)
  | some children => pipeline_wait os children 0 r.2

/-! ## Chains and the entry point (executor.c, lines 12-64) -/

/-- The loop of lines 49-56 over the sub-commands still to run:
`last_status = execute_command(parts[i]); if (last_status != 0) break;`. -/
def chain_loop {α : Type} (run : α → World → Int × World) : List α → Int → World → Int × World
  | [], last_status, w => (last_status, w)
  | p :: rest, _, w =>
    let r := run p w
    if r.1 ≠ 0 then r else chain_loop run rest r.1 r.2

/-- Lines 66-299: what execute_command does with a line that has no chain operator. -/
def execute_no_chain (os : OS) (cmd : CStr) (w : World) : Int × World :=
  if strchr_pipe cmd then execute_pipeline os cmd w else execute_single os cmd w

/-! ## Notions used to state the properties -/

/-- The world after the sub-commands `ps` have run one after the other from `w`, whatever
they returned. -/
def run_all (run : CStr → World → Int × World) (ps : List CStr) (w : World) : World :=
  ps.foldl (fun w1 p => (run p w1).2) w

/-- The status sub-command number `j` (from 0) of `ps` returns when it runs after the `j`
sub-commands before it. -/
def link_status (run : CStr → World → Int × World) (ps : List CStr) (w : World) (j : Nat) : Int :=
  match ps.get? j with
  | some p => (run p (run_all run (ps.take j) w)).1
  | none => 0

/-- The effects added between the world `w` and a later world `w1`. -/
def new_events (w w1 : World) : List Event := w1.trace.drop w.trace.length

/-- An effect that is an entry into exec_builtin. -/
def Event.is_call_builtin : Event → Bool
  | Event.call_builtin _ => true
  | _ => false

/-- The effects from `w` to `w1` are all additions satisfying `P`. -/
def only_adds (P : Event → Prop) (w w1 : World) : Prop :=
  ∃ evs, w1.trace = w.trace ++ evs ∧ ∀ e ∈ evs, P e

/-- The kinds of effect the external route performs. -/
def Event.is_launch_effect : Event → Prop
  | Event.call_external _ => True
  | Event.persist _ => True
  | Event.open_file _ _ _ => True
  | Event.fork_failed => True
  | Event.spawn _ => True
  | Event.reap _ => True
  | _ => False

/-- The child exec_external forks for the vector `args`. -/
def external_child (args : List CStr) : Child := ⟨Stream.inherited, Stream.inherited, args⟩

/-- The world in which exec_external calls `fork`: its entry and the history update done. -/
def external_ready (args : List CStr) (w : World) : World :=
  add_command_to_history (join_args args) (w.log (Event.call_external args))

/-- The trace the child of exec_external runs in: the one of external_ready with the child
spawned. -/
def external_trace (args : List CStr) (w : World) : List Event :=
  ((external_ready args w).log (Event.spawn (external_child args))).trace

/-- The pieces of a string cut at every occurrence of the character `d`, empty pieces
included; `cur` holds the piece being read. -/
def split_at_char (d : Char) : CStr → CStr → List CStr
  | cur, [] => [cur]
  | cur, c :: cs =>
    if c = d then cur :: split_at_char d [] cs else split_at_char d (cur ++ [c]) cs

/-- The pieces put back together with one `d` between neighbours. -/
def join_with (d : Char) : List CStr → CStr
  | [] => []
  | [p] => p
  | p :: q :: rest => p ++ d :: join_with d (q :: rest)

/-- The stages `parts[0 .. pcount)` of a line that holds a pipe character. -/
def pipeline_stages (cmd : CStr) : List CStr := (pipe_collect (strtok_all '|' cmd) []).1

/-- The world after a sequence of add_command_to_history calls, one per command, in order. -/
def add_all (cmds : List CStr) (w : World) : World :=
  cmds.foldl (fun w1 c => add_command_to_history c w1) w

/-- The child an effect spawns, if it is a spawn. -/
def Event.spawned : Event → Option Child
  | Event.spawn c => some c
  | _ => none

/-- The pipe an effect creates, if it is the creation of a pipe. -/
def Event.pipe_id : Event → Option Nat
  | Event.pipe_created i => some i
  | _ => none

/-- Stage `i` of `n` wired as a pipeline without redirection is: standard input from the pipe
before it (the shell's own for the first stage), standard output to its own pipe (the shell's
own for the last stage), and its tokens as argument vector. -/
def wired_child (n i : Nat) (part : CStr) : Child :=
  ⟨if i = 0 then Stream.inherited else Stream.pipe_read (i - 1),
   if i + 1 < n then Stream.pipe_write i else Stream.inherited,
   (strtok_all ' ' part).take (MAX_ARGS - 1)⟩

/-- The wired children of the stages `parts`, the first of which is stage `i` of `n`. -/
def wired_children (n : Nat) : Nat → List CStr → List Child
  | _, [] => []
  | i, part :: rest => wired_child n i part :: wired_children n (i + 1) rest

/-- The effects of launching the stages `parts`, the first of which is stage `i` of `n`, when
every call succeeds and no stage carries redirection: a pipe before every stage but the last,
and the child. -/
def wired_events (n : Nat) : Nat → List CStr → List Event
  | _, [] => []
  | i, part :: rest =>
    (if i + 1 < n then [Event.pipe_created i] else [])
      ++ Event.spawn (wired_child n i part) :: wired_events n (i + 1) rest

/-- The bytes that separate words: space, tab, newline. -/
def is_word_sep (c : Nat) : Bool := c = 32 || c = 9 || c = 10

/-- The number of maximal runs of bytes that are not separators, `after_sep` telling whether
the byte before the list is a separator (or the start of the file). -/
def word_runs_from : Bool → List Nat → Nat
  | _, [] => 0
  | after_sep, c :: rest =>
    if is_word_sep c then word_runs_from true rest
    else (if after_sep then 1 else 0) + word_runs_from false rest

/-- The number of whitespace-delimited words of a file. -/
def word_runs (content : List Nat) : Nat := word_runs_from true content

/-- Whether a file ends in the middle of a word. -/
def ends_in_word (content : List Nat) : Bool :=
  match content.getLast? with
  | some c => !is_word_sep c
  | none => false

/-- The pieces of a line cut at each occurrence of the two-character chain operator and
nowhere else; `cur` holds the piece being read. -/
def split_at_andand : CStr → CStr → List CStr
  | cur, [] => [cur]
  | cur, [c] => [cur ++ [c]]
  | cur, c1 :: c2 :: rest =>
    if c1 = '&' ∧ c2 = '&' then cur :: split_at_andand [] rest
    else split_at_andand (cur ++ [c1]) (c2 :: rest)

/-- A piece without its surrounding whitespace. -/
def trim_whitespace (s : CStr) : CStr :=
  ((s.dropWhile Char.isWhitespace).reverse.dropWhile Char.isWhitespace).reverse

/-- The sub-commands as the specification words them: the line split at each chain operator,
each piece trimmed, empty pieces dropped. -/
def split_chain_by_operator (cmd : CStr) : List CStr :=
  ((split_at_andand [] cmd).map trim_whitespace).filter (fun t => t ≠ [])

/-- Running one piece of a chain the way the code treats a sub-command: the piece is trimmed
by chain_trim, and a piece that is then empty is dropped (nothing runs, the status is 0). -/
def run_piece (run : CStr → World → Int × World) (piece : CStr) (w : World) : Int × World :=
  if 0 < (chain_trim piece).length then run (chain_trim piece) w else (0, w)

/-- Right-recursive evaluation of a chain: read up to the first chain operator (`cur` holds
the text read so far), run the left part, and only if it returns 0 evaluate the remaining
text the same way; text without a chain operator is run as the last piece. -/
def eval_right_recursive (run : CStr → World → Int × World) : CStr → CStr → World → Int × World
  | cur, [], w => run_piece run cur w
  | cur, [c], w => run_piece run (cur ++ [c]) w
  | cur, c1 :: c2 :: rest, w =>
    if c1 = '&' ∧ c2 = '&' then
      (if (run_piece run cur w).1 ≠ 0 then run_piece run cur w
       else eval_right_recursive run [] rest (run_piece run cur w).2)
    else eval_right_recursive run (cur ++ [c1]) (c2 :: rest) w

/-- Right-recursive evaluation of a command line: a line with a chain operator is evaluated
by eval_right_recursive, any other line is run as it is. -/
def eval_line_right_recursive (run : CStr → World → Int × World) (cmd : CStr) (w : World) :
    Int × World :=
  if strstr_andand cmd = true then eval_right_recursive run [] cmd w else run cmd w

/-- Every ampersand of the text belongs to a pair: read from the left, an ampersand is always
followed by a second one, and the reading goes on after the pair. -/
def amp_paired : CStr → Bool
  | [] => true
  | [c] => c != '&'
  | c1 :: c2 :: rest =>
    if c1 = '&' then (c2 == '&' && amp_paired rest) else amp_paired (c2 :: rest)

/-- The pieces of a line cut at the chain operators, each trimmed by chain_trim, the empty
ones dropped. -/
def chain_pieces (cur cmd : CStr) : List CStr :=
  ((split_at_andand cur cmd).map chain_trim).filter (fun t => 0 < t.length)

/-- A line of 33 sub-commands `a` joined by the chain operator. -/
def line_33_links : CStr :=
  (List.replicate 32 (cs "a&&")).flatten ++ cs "a"

/-! ## Sample systems for concrete runs -/

/-- The empty world: no history, no effect yet. -/
def world_empty : World := ⟨[], []⟩

/-- A system where every call succeeds, every program exits with 0, and no file can be read
by `fopen`. -/
def os_ok : OS :=
  ⟨fun _ => true, fun _ => true, fun _ _ _ => true,
   fun _ _ => ExecOutcome.ran (WaitStatus.exited 0), fun _ _ => none, fun _ => none,
   fun _ _ => true⟩

/-- As os_ok, but `fopen` reads the given bytes from every path. -/
def os_file (content : List Nat) : OS :=
  { os_ok with fopen := fun _ _ => some content }

/-- As os_ok, but the program `a` exits with `code` and every other program is killed by a
signal. -/
def os_pipe (code : Fin 256) : OS :=
  { os_ok with
    execvp := fun _ c =>
      if c.argv = [cs "a"] then ExecOutcome.ran (WaitStatus.exited code)
      else ExecOutcome.ran WaitStatus.killed }

/-- As os_ok, but the program `false` exits with 1. -/
def os_false : OS :=
  { os_ok with
    execvp := fun _ c =>
      if c.argv.head? = some (cs "false") then ExecOutcome.ran (WaitStatus.exited 1)
      else ExecOutcome.ran (WaitStatus.exited 0) }

/-- As os_ok, but no file can be opened by `open`. -/
def os_no_open : OS :=
  { os_ok with open_ok := fun _ _ _ => false }

/-- As os_ok, but no directory can be entered by `chdir`. -/
def os_no_chdir : OS :=
  { os_ok with chdir_ok := fun _ _ => false }

/-! ### Why the recursion of execute_command ends

A sub-command is cut out of a token of `strtok_r(cmd_copy, "&", ..)`, so it holds no ampersand,
while a line that takes the chain branch holds one. -/

theorem strtok_scan_no_delim (d : Char) :
    ∀ (s cur : CStr), d ∉ cur → ∀ t ∈ strtok_scan d cur s, d ∉ t := by
  intro s
  induction s with
  | nil =>
    intro cur hcur t ht
    unfold strtok_scan at ht
    split at ht
    · simp at ht
    · simp at ht; subst ht; exact hcur
  | cons c cs ih =>
    intro cur hcur t ht
    unfold strtok_scan at ht
    split at ht
    · split at ht
      · exact ih [] (by simp) t ht
      · rcases List.mem_cons.mp ht with h | h
        · subst h; exact hcur
        · exact ih [] (by simp) t h
    · rename_i hcd
      refine ih (cur ++ [c]) ?_ t ht
      simp only [List.mem_append, List.mem_singleton, not_or]
      exact ⟨hcur, fun h => hcd h.symm⟩

theorem trim_trailing_subset (t : CStr) : ∀ c ∈ trim_trailing t, c ∈ t := by
  intro c hc
  cases t with
  | nil => simp [trim_trailing] at hc
  | cons a as =>
    simp only [trim_trailing, List.mem_cons, List.mem_reverse] at hc ⊢
    rcases hc with h | h
    · exact Or.inl h
    · exact Or.inr (List.mem_reverse.mp ((List.dropWhile_sublist _).subset h))

theorem chain_trim_subset (t : CStr) : ∀ c ∈ chain_trim t, c ∈ t := by
  intro c hc
  unfold chain_trim at hc
  have h1 := trim_trailing_subset _ c hc
  have h2 := (List.dropWhile_sublist _).subset h1
  split at h2
  · exact List.mem_of_mem_drop h2
  · exact h2

theorem chain_collect_mem : ∀ (toks parts : List CStr) (p : CStr),
    p ∈ chain_collect toks parts → p ∈ parts ∨ ∃ t ∈ toks, p = chain_trim t := by
  intro toks
  induction toks with
  | nil => intro parts p hp; exact Or.inl (by simpa [chain_collect] using hp)
  | cons tok rest ih =>
    intro parts p hp
    unfold chain_collect at hp
    split at hp
    · rcases ih _ p hp with h | ⟨t, ht, hpt⟩
      · split at h
        · rcases List.mem_append.mp h with h | h
          · exact Or.inl h
          · exact Or.inr ⟨tok, by simp, by simpa using h⟩
        · exact Or.inl h
      · exact Or.inr ⟨t, List.mem_cons_of_mem _ ht, hpt⟩
    · exact Or.inl hp

theorem chain_parts_no_amp (cmd p : CStr) (hp : p ∈ chain_parts cmd) : '&' ∉ p := by
  rcases chain_collect_mem _ _ p hp with h | ⟨t, ht, hpt⟩
  · simp at h
  · intro hmem
    rw [hpt] at hmem
    exact strtok_scan_no_delim '&' cmd [] (by simp) t ht (chain_trim_subset t _ hmem)

theorem strstr_andand_mem : ∀ (cmd : CStr), strstr_andand cmd = true → '&' ∈ cmd := by
  intro cmd
  induction cmd with
  | nil => intro h; simp [strstr_andand] at h
  | cons c cs ih =>
    intro h
    simp only [strstr_andand, Bool.or_eq_true, Bool.and_eq_true, beq_iff_eq] at h
    rcases h with ⟨h, _⟩ | h
    · simp [h]
    · exact List.mem_cons_of_mem _ (ih h)

/-- The function execute_command: the chain branch calls execute_command on every
sub-command, every other line goes on to the pipeline or the single-command code. -/
def execute_command (os : OS) (cmd : CStr) (w : World) : Int × World :=
  if h : strstr_andand cmd = true then
    chain_loop (fun (p : { p : CStr // p ∈ chain_parts cmd }) w1 => execute_command os p.1 w1)
      (chain_parts cmd).attach 0 w
  else execute_no_chain os cmd w
termination_by cmd.count '&'
decreasing_by
  have h0 : List.count '&' p.1 = 0 := List.count_eq_zero.mpr (chain_parts_no_amp cmd p.1 p.2)
  have h1 : 0 < List.count '&' cmd := List.count_pos_iff.mpr (strstr_andand_mem cmd h)
  omega

/-! ## Unfolding execute_command -/

theorem chain_loop_map {α β : Type} (g : α → β) (run : β → World → Int × World) :
    ∀ (l : List α) (last : Int) (w : World),
      chain_loop (fun a w1 => run (g a) w1) l last w = chain_loop run (l.map g) last w := by
  intro l
  induction l with
  | nil => intro last w; rfl
  | cons a rest ih =>
    intro last w
    simp only [chain_loop, List.map_cons]
    split
    · rfl
    · exact ih _ _

/-- The body of execute_command, with the recursive calls as calls. -/
theorem execute_command_eq (os : OS) (cmd : CStr) (w : World) :
    execute_command os cmd w =
      if strstr_andand cmd = true then chain_loop (execute_command os) (chain_parts cmd) 0 w
      else execute_no_chain os cmd w := by
  rw [execute_command]
  split
  · rw [chain_loop_map (fun (p : { p : CStr // p ∈ chain_parts cmd }) => p.1) (execute_command os)]
    simp
  · rfl

theorem strstr_andand_false_of_no_amp : ∀ (cmd : CStr), '&' ∉ cmd → strstr_andand cmd = false := by
  intro cmd h
  cases hs : strstr_andand cmd with
  | false => rfl
  | true => exact absurd (strstr_andand_mem cmd hs) h

/-- A line without the chain operator goes to the pipeline or the single-command code. -/
theorem execute_command_no_chain (os : OS) (cmd : CStr) (w : World)
    (h : strstr_andand cmd = false) :
    execute_command os cmd w = execute_no_chain os cmd w := by
  rw [execute_command_eq]
  simp [h]

theorem chain_loop_congr {α : Type} (f g : α → World → Int × World) :
    ∀ (l : List α) (last : Int) (w : World), (∀ p ∈ l, ∀ w1, f p w1 = g p w1) →
      chain_loop f l last w = chain_loop g l last w := by
  intro l
  induction l with
  | nil => intro last w _; rfl
  | cons a rest ih =>
    intro last w h
    simp only [chain_loop]
    rw [h a (by simp) w]
    split
    · rfl
    · exact ih _ _ (fun p hp w1 => h p (List.mem_cons_of_mem _ hp) w1)

/-- A line with the chain operator runs each of its sub-commands through the pipeline or the
single-command code: the recursion is one level deep. -/
theorem execute_command_chain (os : OS) (cmd : CStr) (w : World)
    (h : strstr_andand cmd = true) :
    execute_command os cmd w = chain_loop (execute_no_chain os) (chain_parts cmd) 0 w := by
  rw [execute_command_eq]
  simp only [h, if_true]
  apply chain_loop_congr
  intro p hp w1
  exact execute_command_no_chain os p w1
    (strstr_andand_false_of_no_amp p (chain_parts_no_amp cmd p hp))

/-! ## C1: the chain loop -/

theorem run_all_cons (run : CStr → World → Int × World) (p : CStr) (ps : List CStr) (w : World) :
    run_all run (p :: ps) w = run_all run ps (run p w).2 := rfl

theorem link_status_zero (run : CStr → World → Int × World) (p : CStr) (ps : List CStr)
    (w : World) : link_status run (p :: ps) w 0 = (run p w).1 := rfl

theorem link_status_succ (run : CStr → World → Int × World) (p : CStr) (ps : List CStr)
    (w : World) (j : Nat) :
    link_status run (p :: ps) w (j + 1) = link_status run ps (run p w).2 j := by
  simp [link_status, run_all]

/-- The chain loop stops at the first sub-command whose status is not 0. -/
theorem chain_loop_first_failure (run : CStr → World → Int × World) :
    ∀ (ps : List CStr) (w : World),
      ∃ k, k ≤ ps.length ∧ (∀ j, j < k → link_status run ps w j = 0) ∧
        ((k = ps.length ∧ chain_loop run ps 0 w = (0, run_all run ps w)) ∨
         (k < ps.length ∧ link_status run ps w k ≠ 0 ∧
            chain_loop run ps 0 w = (link_status run ps w k, run_all run (ps.take (k + 1)) w))) := by
  intro ps
  induction ps with
  | nil =>
    intro w
    exact ⟨0, le_refl _, fun j hj => absurd hj (Nat.not_lt_zero j), Or.inl ⟨rfl, rfl⟩⟩
  | cons p rest ih =>
    intro w
    by_cases hr : (run p w).1 = 0
    · obtain ⟨k, hk, hzero, hcase⟩ := ih (run p w).2
      refine ⟨k + 1, by simpa using hk, ?_, ?_⟩
      · intro j hj
        cases j with
        | zero => rw [link_status_zero]; exact hr
        | succ j => rw [link_status_succ]; exact hzero j (by omega)
      · have hloop : chain_loop run (p :: rest) 0 w = chain_loop run rest 0 (run p w).2 := by
          simp only [chain_loop, hr, ne_eq, not_true_eq_false, if_false]
        rcases hcase with ⟨hlen, hres⟩ | ⟨hlt, hne, hres⟩
        · left
          refine ⟨by simp [hlen], ?_⟩
          rw [hloop, hres, run_all_cons]
        · right
          refine ⟨by simpa using hlt, ?_, ?_⟩
          · rw [link_status_succ]; exact hne
          · rw [hloop, hres, link_status_succ, List.take_succ_cons, run_all_cons]
    · refine ⟨0, Nat.zero_le _, fun j hj => absurd hj (Nat.not_lt_zero j), Or.inr ⟨by simp, ?_, ?_⟩⟩
      · rw [link_status_zero]; exact hr
      · rw [link_status_zero]
        simp only [chain_loop, ne_eq, hr, not_false_eq_true, if_true]
        rfl

/-- C1. For a line that contains the chain operator, with `ps` the sub-commands it is split
into, execute_command runs a leading segment of `ps` in order, each in the world the one
before it left: there is an index `k` such that the sub-commands before `k` all returned 0 and
either `k` is the number of sub-commands, all of them ran and the result is 0, or sub-command
`k` returned a status other than 0, it is the last one that ran (the final world is the one
after the first `k + 1` sub-commands) and its status is the result. -/
theorem C1_chain_short_circuit (os : OS) (cmd : CStr) (w : World)
    (h : strstr_andand cmd = true) :
    ∃ k, k ≤ (chain_parts cmd).length ∧
      (∀ j, j < k → link_status (execute_command os) (chain_parts cmd) w j = 0) ∧
      ((k = (chain_parts cmd).length ∧
          execute_command os cmd w = (0, run_all (execute_command os) (chain_parts cmd) w)) ∨
       (k < (chain_parts cmd).length ∧
          link_status (execute_command os) (chain_parts cmd) w k ≠ 0 ∧
          execute_command os cmd w =
            (link_status (execute_command os) (chain_parts cmd) w k,
             run_all (execute_command os) ((chain_parts cmd).take (k + 1)) w))) := by
  have hspec := chain_loop_first_failure (execute_command os) (chain_parts cmd) w
  have heq : execute_command os cmd w
      = chain_loop (execute_command os) (chain_parts cmd) 0 w := by
    rw [execute_command_eq]; simp [h]
  rw [heq]
  exact hspec

/-- C1 at the line `false && echo hi && echo bye`. -/
theorem C1_chain_short_circuit_witness :
    strstr_andand (cs "false && echo hi && echo bye") = true ∧
    ∃ k, k ≤ (chain_parts (cs "false && echo hi && echo bye")).length ∧
      (∀ j, j < k → link_status (execute_command os_false)
          (chain_parts (cs "false && echo hi && echo bye")) world_empty j = 0) ∧
      ((k = (chain_parts (cs "false && echo hi && echo bye")).length ∧
          execute_command os_false (cs "false && echo hi && echo bye") world_empty =
            (0, run_all (execute_command os_false)
                  (chain_parts (cs "false && echo hi && echo bye")) world_empty)) ∨
       (k < (chain_parts (cs "false && echo hi && echo bye")).length ∧
          link_status (execute_command os_false)
            (chain_parts (cs "false && echo hi && echo bye")) world_empty k ≠ 0 ∧
          execute_command os_false (cs "false && echo hi && echo bye") world_empty =
            (link_status (execute_command os_false)
               (chain_parts (cs "false && echo hi && echo bye")) world_empty k,
             run_all (execute_command os_false)
               ((chain_parts (cs "false && echo hi && echo bye")).take (k + 1)) world_empty))) :=
  ⟨by decide, C1_chain_short_circuit os_false (cs "false && echo hi && echo bye") world_empty
    (by decide)⟩

/-! ## C2, C3: the counts of exec_count -/

/-- One iteration of the counting loop, by the kind of byte read. -/
theorem count_step_cases (s : CountState) (c : Nat) :
    (is_word_sep c = true ∧
      count_step s c = ⟨s.lines + (if c = 10 then 1 else 0), s.words, s.chars + 1, false⟩) ∨
    (is_word_sep c = false ∧ c ≠ 10 ∧
      count_step s c = ⟨s.lines, s.words + (if s.in_word then 0 else 1), s.chars + 1, true⟩) := by
  rcases s with ⟨l, wd, ch, iw⟩
  by_cases h10 : c = 10
  · left; subst h10; simp [count_step, is_word_sep]
  · by_cases h32 : c = 32
    · left; subst h32; simp [count_step, is_word_sep]
    · by_cases h9 : c = 9
      · left; subst h9; simp [count_step, is_word_sep]
      · right
        refine ⟨by simp [is_word_sep, h10, h32, h9], h10, ?_⟩
        cases iw <;> simp [count_step, h10, h32, h9]

theorem count_fold_lines : ∀ (l : List Nat) (s : CountState),
    (l.foldl count_step s).lines = s.lines + l.count 10 := by
  intro l
  induction l with
  | nil => intro s; simp
  | cons c rest ih =>
    intro s
    rw [List.foldl_cons, ih]
    rcases count_step_cases s c with ⟨_, hstep⟩ | ⟨_, h10, hstep⟩
    · rw [hstep]
      by_cases h10 : c = 10
      · subst h10; simp; omega
      · have h : (10 : Nat) ≠ c := fun h => h10 h.symm
        simp [h10, List.count_cons, h]
    · have h : (10 : Nat) ≠ c := fun h => h10 h.symm
      rw [hstep]
      simp [List.count_cons, h]

theorem count_fold_chars : ∀ (l : List Nat) (s : CountState),
    (l.foldl count_step s).chars = s.chars + l.length := by
  intro l
  induction l with
  | nil => intro s; simp
  | cons c rest ih =>
    intro s
    rw [List.foldl_cons, ih]
    rcases count_step_cases s c with ⟨_, hstep⟩ | ⟨_, _, hstep⟩ <;>
      (rw [hstep, List.length_cons]; simp only []; omega)

theorem count_fold_words : ∀ (l : List Nat) (s : CountState),
    (l.foldl count_step s).words = s.words + word_runs_from (!s.in_word) l := by
  intro l
  induction l with
  | nil => intro s; simp [word_runs_from]
  | cons c rest ih =>
    intro s
    rw [List.foldl_cons, ih]
    rcases count_step_cases s c with ⟨hs, hstep⟩ | ⟨hs, _, hstep⟩
    · rw [hstep]
      simp [word_runs_from, hs]
    · rw [hstep]
      cases hin : s.in_word <;> simp [word_runs_from, hs]
      omega

theorem count_step_in_word (s : CountState) (c : Nat) :
    (count_step s c).in_word = !is_word_sep c := by
  rcases count_step_cases s c with ⟨hs, hstep⟩ | ⟨hs, _, hstep⟩ <;> rw [hstep, hs] <;> rfl

theorem count_fold_in_word : ∀ (l : List Nat) (s : CountState),
    (l.foldl count_step s).in_word =
      match l.getLast? with
      | some c => !is_word_sep c
      | none => s.in_word := by
  intro l
  induction l with
  | nil => intro s; rfl
  | cons c rest ih =>
    intro s
    rw [List.foldl_cons, ih]
    cases rest with
    | nil => simp [count_step_in_word]
    | cons d rest2 =>
      rw [List.getLast?_cons_cons]
      cases h : (d :: rest2).getLast? with
      | none => simp at h
      | some x => rfl

/-- What exec_count reports as the number of lines: one per newline byte, plus one whenever
the file is not empty. -/
theorem count_file_lines (content : List Nat) :
    (count_file content).lines = content.count 10 + (if content = [] then 0 else 1) := by
  have hl := count_fold_lines content ⟨0, 0, 0, false⟩
  have hc := count_fold_chars content ⟨0, 0, 0, false⟩
  simp only [Nat.zero_add] at hl hc
  have hE : (EOF : Int) ≠ 10 := by decide
  cases content with
  | nil => simp [count_file, EOF]
  | cons c rest =>
    have hpos : 0 < (List.foldl count_step ⟨0, 0, 0, false⟩ (c :: rest)).chars := by
      rw [hc]; simp
    unfold count_file
    simp only [hE, ne_eq, not_false_eq_true, and_true]
    split <;> simp_all

/-- What exec_count reports as the number of words: one per maximal run of non-separator
bytes, plus one whenever the file ends inside a word. -/
theorem count_file_words (content : List Nat) :
    (count_file content).words = word_runs content + (if ends_in_word content then 1 else 0) := by
  have hw := count_fold_words content ⟨0, 0, 0, false⟩
  have hi := count_fold_in_word content ⟨0, 0, 0, false⟩
  simp only [Nat.zero_add, Bool.not_false] at hw hi
  have hin : (List.foldl count_step ⟨0, 0, 0, false⟩ content).in_word = ends_in_word content := by
    rw [hi]; unfold ends_in_word; cases content.getLast? <;> rfl
  unfold count_file word_runs
  cases hcase : ends_in_word content with
  | false =>
    rw [hcase] at hin
    simp only [hin, Bool.false_eq_true, if_false]
    split <;> simp [hw]
  | true =>
    rw [hcase] at hin
    simp only [hin, if_true]
    split <;> simp [hw]

/-- C2. On the file `a b\nc\n`, which ends in a newline, exec_count reports 3 lines (and 3
words, 6 characters), not 2: after the loop `c` is `EOF`, so the test `c != '\n'` always holds
and every file that is not empty gets one more line than it has newline bytes. -/
theorem C2_count_lines_extra_line :
    (∀ content : List Nat,
        (count_file content).lines = content.count 10 + (if content = [] then 0 else 1)) ∧
    count_file (bytes_of "a b\nc\n") = ⟨3, 3, 6, false⟩ ∧
    exec_count (os_file (bytes_of "a b\nc\n")) [cs "count", cs "f"] world_empty =
      (0, ⟨[], [Event.fopen (cs "f") true,
                Event.print (Output.count_report (cs "f") 3 3 6)]⟩) :=
  ⟨count_file_lines, by decide, by decide⟩

/-- C3. On the file `a b`, which ends in the middle of a word, exec_count reports 3 words
while the file has 2 whitespace-delimited words: the word is counted when it starts and once
more by `if (in_word) words++` after the loop. -/
theorem C3_count_words_extra_word :
    (∀ content : List Nat,
        (count_file content).words =
          word_runs content + (if ends_in_word content then 1 else 0)) ∧
    word_runs (bytes_of "a b") = 2 ∧
    (count_file (bytes_of "a b")).words = 3 ∧
    exec_count (os_file (bytes_of "a b")) [cs "count", cs "f"] world_empty =
      (0, ⟨[], [Event.fopen (cs "f") true,
                Event.print (Output.count_report (cs "f") 1 3 3)]⟩) :=
  ⟨count_file_words, by decide, by decide, by decide⟩

/-! ## C4: the argument vector of `ls` -/

theorem store_at_end {α : Type} (pre extra : List α) (v : α) (h : extra.length ≤ 1) :
    store (pre ++ extra) pre.length v = pre ++ [v] := by
  match extra, h with
  | [], _ => simp [store]
  | [x], _ => simp [store]

theorem ls_copy_result : ∀ (rest : List CStr) (j : Nat) (pre extra : List (Option CStr)),
    pre.length = j → extra.length ≤ 1 → j + rest.length ≤ MAX_ARGS - 1 →
    ∃ extra2 : List (Option CStr), extra2.length ≤ 1 ∧
      ls_copy rest j (pre ++ extra) = (j + rest.length, pre ++ rest.map some ++ extra2) := by
  intro rest
  induction rest with
  | nil =>
    intro j pre extra _ hextra _
    exact ⟨extra, hextra, by simp [ls_copy]⟩
  | cons a rest ih =>
    intro j pre extra hj hextra hlen
    have hlt : j < MAX_ARGS - 1 := by simp only [List.length_cons] at hlen; omega
    obtain ⟨extra2, h2, heq⟩ := ih (j + 1) (pre ++ [some a]) [] (by simp [hj]) (by simp)
      (by simp only [List.length_cons] at hlen; omega)
    refine ⟨extra2, h2, ?_⟩
    simp only [ls_copy, hlt, if_true]
    rw [← hj, store_at_end pre extra (some a) hextra]
    rw [List.append_nil] at heq
    rw [hj, heq]
    simp only [List.length_cons, List.map_cons, List.append_assoc, List.singleton_append,
      Prod.mk.injEq, and_true]
    omega

theorem argv_of_map_some : ∀ (l : List CStr) (tail : List (Option CStr)),
    argv_of (l.map some ++ none :: tail) = l := by
  intro l
  induction l with
  | nil => intro tail; rfl
  | cons a rest ih => intro tail; simp [argv_of, ih]

/-- The vector built in the `ls` branch is the original vector: slot 1, where the flag was
stored, is overwritten by the copy loop or by the terminating NULL. -/
theorem ls_colored_args_eq (name : CStr) (rest : List CStr)
    (h : (name :: rest).length ≤ MAX_ARGS - 1) :
    ls_colored_args (name :: rest) = name :: rest := by
  obtain ⟨extra2, h2, heq⟩ := ls_copy_result rest 1 [some name] [some (cs "--color=auto")]
    rfl (by simp) (by simp only [List.length_cons] at h; omega)
  have hstore : store [] 0 (some name) = [some name] := rfl
  have hstore2 : store [some name] 1 (some (cs "--color=auto"))
      = [some name] ++ [some (cs "--color=auto")] := rfl
  unfold ls_colored_args
  simp only [List.head?_cons, List.drop_succ_cons, List.drop_zero, hstore, hstore2, heq]
  have hlen : 1 + rest.length = ([some name] ++ rest.map some).length := by
    simp [Nat.add_comm]
  rw [hlen, store_at_end _ extra2 none h2]
  have := argv_of_map_some (name :: rest) []
  simpa using this

theorem single_args_length (cmd : CStr) : (single_args cmd).length ≤ MAX_ARGS - 1 := by
  unfold single_args
  simp [List.length_take]

/-- Every single `ls` line hands exec_external the tokens of the line, unchanged. -/
theorem execute_single_ls (os : OS) (cmd : CStr) (w : World) (rest : List CStr)
    (h : single_args cmd = cs "ls" :: rest) :
    execute_single os cmd w = exec_external os (cs "ls" :: rest) w := by
  have hlen := single_args_length cmd
  rw [h] at hlen
  unfold execute_single
  simp only [h, if_true]
  rw [ls_colored_args_eq _ _ hlen]

/-- C4. For the lines `ls` and `ls -l` the argument vector execute_command hands to
exec_external is `["ls"]` and `["ls", "-l"]`: the flag `--color=auto` is absent. The copy loop
starts at `j = 1`, the slot the flag was stored in, so the flag is overwritten by the first
argument or, for a bare `ls`, by the terminating NULL. -/
theorem C4_ls_color_flag_lost :
    ls_colored_args [cs "ls"] = [cs "ls"] ∧
    ls_colored_args [cs "ls", cs "-l"] = [cs "ls", cs "-l"] ∧
    execute_command os_ok (cs "ls") world_empty =
      (0, ⟨[cs "ls"],
           [Event.call_external [cs "ls"], Event.persist (cs "ls"),
            Event.spawn ⟨Stream.inherited, Stream.inherited, [cs "ls"]⟩,
            Event.reap (WaitStatus.exited 0)]⟩) ∧
    execute_command os_ok (cs "ls -l") world_empty =
      (0, ⟨[cs "ls -l"],
           [Event.call_external [cs "ls", cs "-l"], Event.persist (cs "ls -l"),
            Event.spawn ⟨Stream.inherited, Stream.inherited, [cs "ls", cs "-l"]⟩,
            Event.reap (WaitStatus.exited 0)]⟩) := by
  refine ⟨by decide, by decide, ?_, ?_⟩
  · rw [execute_command_no_chain _ _ _ (by decide)]; decide
  · rw [execute_command_no_chain _ _ _ (by decide)]; decide

/-! ## C5: redirection tokens in the argument vector of a single command -/

/-- C5. For the line `cat < in > out` the program is started with the argument vector
`["cat", ">", "out"]`: after the redirection loop has removed `<` and `in` at index 1 it moves
on to index 2, so the operator `>` that slid into index 1 is never examined and stays in the
vector with its filename. For the line `ls > out` the `ls` branch returns before the
redirection loop and the program gets `["ls", ">", "out"]`. -/
theorem C5_redirection_tokens_left_in_argv :
    execute_command os_ok (cs "cat < in > out") world_empty =
      (0, ⟨[cs "cat < in > out"],
           [Event.open_file (some (cs "in")) OpenMode.rdonly true,
            Event.persist (cs "cat < in > out"),
            Event.spawn ⟨Stream.file (cs "in") OpenMode.rdonly, Stream.inherited,
              [cs "cat", cs ">", cs "out"]⟩,
            Event.reap (WaitStatus.exited 0)]⟩) ∧
    execute_command os_ok (cs "ls > out") world_empty =
      (0, ⟨[cs "ls > out"],
           [Event.call_external [cs "ls", cs ">", cs "out"], Event.persist (cs "ls > out"),
            Event.spawn ⟨Stream.inherited, Stream.inherited, [cs "ls", cs ">", cs "out"]⟩,
            Event.reap (WaitStatus.exited 0)]⟩) := by
  refine ⟨?_, ?_⟩
  · rw [execute_command_no_chain _ _ _ (by decide)]; decide
  · rw [execute_command_no_chain _ _ _ (by decide)]; decide

/-! ## C6: the status of a pipeline -/

theorem pipeline_wait_append (os : OS) (c : Child) :
    ∀ (children : List Child) (last : Int) (w : World),
      pipeline_wait os (children ++ [c]) last w =
        pipeline_wait os [c] (pipeline_wait os children last w).1
          (pipeline_wait os children last w).2 := by
  intro children
  induction children with
  | nil => intro last w; rfl
  | cons d rest ih =>
    intro last w
    simp only [List.cons_append, pipeline_wait]
    split
    · exact ih _ _
    · exact ih _ _

/-- What the wait loop returns, by the way the final stage terminated: its exit code when it
exited normally, and otherwise the value the stages before it left in `last_status`. -/
theorem pipeline_wait_final_stage (os : OS) (children : List Child) (c : Child) (w : World) :
    (pipeline_wait os (children ++ [c]) 0 w).1 =
      match stage_status os (pipeline_wait os children 0 w).2.trace c with
      | WaitStatus.exited code => (code.val : Int)
      | WaitStatus.killed => (pipeline_wait os children 0 w).1 := by
  rw [pipeline_wait_append]
  simp only [pipeline_wait]
  split <;> rfl

/-- C6. Two runs of the pipeline `a | b` in which both stages are launched and the final stage
`b` is killed by a signal, differing only in the exit code of the first stage `a`: the run
where `a` exits with 3 returns 3, the run where `a` exits with 0 returns 0. The wait loop
assigns `last_status` only under `WIFEXITED(st)`, so the status of an earlier stage is what is
returned when the final stage did not exit normally. -/
theorem C6_pipeline_status_from_earlier_stage :
    execute_command (os_pipe 3) (cs "a | b") world_empty =
      (3, ⟨[], [Event.pipe_created 0,
                Event.spawn ⟨Stream.inherited, Stream.pipe_write 0, [cs "a"]⟩,
                Event.spawn ⟨Stream.pipe_read 0, Stream.inherited, [cs "b"]⟩,
                Event.reap (WaitStatus.exited 3), Event.reap WaitStatus.killed]⟩) ∧
    execute_command (os_pipe 0) (cs "a | b") world_empty =
      (0, ⟨[], [Event.pipe_created 0,
                Event.spawn ⟨Stream.inherited, Stream.pipe_write 0, [cs "a"]⟩,
                Event.spawn ⟨Stream.pipe_read 0, Stream.inherited, [cs "b"]⟩,
                Event.reap (WaitStatus.exited 0), Event.reap WaitStatus.killed]⟩) := by
  refine ⟨?_, ?_⟩
  · rw [execute_command_no_chain _ _ _ (by decide)]; decide
  · rw [execute_command_no_chain _ _ _ (by decide)]; decide

/-! ## C7: redirection inside a pipeline stage -/

/-- With at most 32 stages the splitting loop ends with `tok == NULL`. -/
theorem pipe_collect_tok_null : ∀ (toks parts : List CStr),
    parts.length + toks.length ≤ MAX_PARTS → (pipe_collect toks parts).2 = none := by
  intro toks
  induction toks with
  | nil => intro parts _; rfl
  | cons t rest ih =>
    intro parts h
    simp only [List.length_cons] at h
    have hlt : parts.length < MAX_PARTS := by omega
    simp only [pipe_collect, hlt, if_true]
    exact ih _ (by simp only [List.length_append, List.length_singleton]; omega)

/-- With `tok == NULL` the token loop of a stage leaves both descriptors at -1. -/
theorem stage_scan_null_tok (os : OS) : ∀ (n : Nat) (toks : List CStr) (s : StageState) (w : World),
    toks.length ≤ n → s.infd = none → s.outfd = none →
      (stage_scan os none toks s w).1.infd = none ∧
      (stage_scan os none toks s w).1.outfd = none := by
  intro n
  induction n with
  | zero =>
    intro toks s w hlen hi ho
    have : toks = [] := List.length_eq_zero.mp (Nat.le_zero.mp hlen)
    subst this
    exact ⟨hi, ho⟩
  | succ n ih =>
    intro toks s w hlen hi ho
    cases toks with
    | nil => exact ⟨hi, ho⟩
    | cons tk rest =>
      simp only [List.length_cons] at hlen
      unfold stage_scan
      split
      · split
        · cases rest with
          | nil => exact ⟨hi, ho⟩
          | cons f rest2 =>
            simp only [List.length_cons] at hlen
            exact ih rest2 _ _ (by omega) hi (by simp [sys_open])
        · split
          · cases rest with
            | nil => exact ⟨hi, ho⟩
            | cons f rest2 =>
              simp only [List.length_cons] at hlen
              exact ih rest2 _ _ (by omega) (by simp [sys_open]) ho
          · exact ih rest _ _ (by omega) hi ho
      · exact ⟨hi, ho⟩

/-- With `tok == NULL` no stage is bound to a file, whatever redirection it carries: its
standard input is the previous pipe or the shell's own, its standard output the next pipe or
the shell's own. -/
theorem stage_child_null_tok (os : OS) (pcount pi : Nat) (prev_fd : Option Nat) (part : CStr)
    (w : World) :
    (stage_child os none pcount pi prev_fd part w).1.stdin =
      (match prev_fd with
        | some i => Stream.pipe_read i
        | none => Stream.inherited) ∧
    (stage_child os none pcount pi prev_fd part w).1.stdout =
      (if pi < pcount - 1 then Stream.pipe_write pi else Stream.inherited) := by
  obtain ⟨hi, ho⟩ := stage_scan_null_tok os (strtok_all ' ' part).length (strtok_all ' ' part)
    ⟨[], none, none⟩ w (le_refl _) rfl rfl
  unfold stage_child
  simp only [hi, ho, bind_fd]
  exact ⟨trivial, trivial⟩

/-- C7. In the pipeline `cat < in.txt | wc`, on a system where every file can be opened, the
first stage calls `open` with a NULL path instead of `in.txt`, the call fails, and the stage
runs with the shell's own standard input; in `a | sort > out.txt` the last stage likewise
opens NULL and keeps the shell's standard output. The two `open` calls of the stage code are
given `tok`, the variable of the splitting loop (NULL once that loop has ended), not `tk`,
the token that follows the operator. -/
theorem C7_stage_redirection_opens_wrong_path :
    execute_command os_ok (cs "cat < in.txt | wc") world_empty =
      (0, ⟨[], [Event.pipe_created 0,
                Event.open_file none OpenMode.rdonly false,
                Event.spawn ⟨Stream.inherited, Stream.pipe_write 0, [cs "cat"]⟩,
                Event.spawn ⟨Stream.pipe_read 0, Stream.inherited, [cs "wc"]⟩,
                Event.reap (WaitStatus.exited 0), Event.reap (WaitStatus.exited 0)]⟩) ∧
    execute_command os_ok (cs "a | sort > out.txt") world_empty =
      (0, ⟨[], [Event.pipe_created 0,
                Event.spawn ⟨Stream.inherited, Stream.pipe_write 0, [cs "a"]⟩,
                Event.open_file none OpenMode.wronly_creat_trunc false,
                Event.spawn ⟨Stream.pipe_read 0, Stream.inherited, [cs "sort"]⟩,
                Event.reap (WaitStatus.exited 0), Event.reap (WaitStatus.exited 0)]⟩) := by
  refine ⟨?_, ?_⟩
  · rw [execute_command_no_chain _ _ _ (by decide)]; decide
  · rw [execute_command_no_chain _ _ _ (by decide)]; decide

/-! ## C10: where a chain is split -/

/-- C10. The line `a & b && c` is evaluated as the three sub-commands `a`, `b`, `c`, while
split at the chain operator only it has the two sub-commands `a & b` and `c`: the splitting
loop calls `strtok_r` with the delimiter set `"&"`, which cuts at every ampersand. -/
theorem C10_chain_split_at_single_ampersand :
    strstr_andand (cs "a & b && c") = true ∧
    chain_parts (cs "a & b && c") = [cs "a", cs "b", cs "c"] ∧
    split_chain_by_operator (cs "a & b && c") = [cs "a & b", cs "c"] ∧
    execute_command os_ok (cs "a & b && c") world_empty =
      (0, ⟨[cs "a", cs "b", cs "c"],
           [Event.call_external [cs "a"], Event.persist (cs "a"),
            Event.spawn ⟨Stream.inherited, Stream.inherited, [cs "a"]⟩,
            Event.reap (WaitStatus.exited 0),
            Event.call_external [cs "b"], Event.persist (cs "b"),
            Event.spawn ⟨Stream.inherited, Stream.inherited, [cs "b"]⟩,
            Event.reap (WaitStatus.exited 0),
            Event.call_external [cs "c"], Event.persist (cs "c"),
            Event.spawn ⟨Stream.inherited, Stream.inherited, [cs "c"]⟩,
            Event.reap (WaitStatus.exited 0)]⟩) := by
  refine ⟨by decide, by decide, by decide, ?_⟩
  rw [execute_command_chain _ _ _ (by decide)]; decide

/-! ## C8: commands that are not recorded -/

theorem log_history (w : World) (e : Event) : (w.log e).history = w.history := rfl

theorem log_trace (w : World) (e : Event) : (w.log e).trace = w.trace ++ [e] := rfl

theorem add_history_skips_history (w : World) : add_command_to_history (cs "history") w = w := by
  have h0 : ¬ (cs "history").length = 0 := by decide
  simp [add_command_to_history, h0]

theorem add_history_skips_cd (w : World) : add_command_to_history (cs "cd") w = w := by
  have h0 : ¬ (cs "cd").length = 0 := by decide
  simp [add_command_to_history, h0]

theorem exec_history_keeps_history (args : List CStr) (w : World) :
    (exec_history args w).2.history = w.history := by
  unfold exec_history
  split <;> rfl

theorem exec_cd_keeps_history (os : OS) (args : List CStr) (w : World) :
    (exec_cd os args w).2.history = w.history := by
  unfold exec_cd
  split
  · split
    · rfl
    · split <;> rfl
  · split <;> rfl

/-- A single command line sent to the built-ins. -/
theorem execute_single_builtin (os : OS) (cmd : CStr) (w : World) (name : CStr)
    (rest : List CStr) (h : single_args cmd = name :: rest) (hb : is_builtin name = true) :
    execute_single os cmd w = exec_builtin os (name :: rest) w := by
  have hls : ¬ name = cs "ls" := by
    intro hn
    rw [hn] at hb
    exact absurd hb (by decide)
  unfold execute_single
  simp only [h, hls, hb, if_true, if_false]

/-- C8, counterexample. The line `exit`, run through execute_command from the empty history,
leaves the history `["exit"]`: exec_builtin records `args[0]` and add_command_to_history skips
only `history` and `cd`. -/
theorem C8_exit_is_recorded :
    ¬ ((execute_command os_ok (cs "exit") world_empty).2.history = world_empty.history) := by
  rw [execute_command_no_chain _ _ _ (by decide)]
  decide

/-- C8, amended. For every history state and every command line whose program name (the first
token of a line with no chain operator and no pipe) is `history` or `cd`, with or without
arguments, running it through execute_command leaves the history log unchanged. -/
theorem C8_history_and_cd_not_recorded (os : OS) (cmd : CStr) (w : World) (name : CStr)
    (rest : List CStr) (h1 : strstr_andand cmd = false) (h2 : strchr_pipe cmd = false)
    (h3 : single_args cmd = name :: rest) (hn : name = cs "history" ∨ name = cs "cd") :
    (execute_command os cmd w).2.history = w.history := by
  have hb : is_builtin name = true := by
    rcases hn with hn | hn <;> (rw [hn]; decide)
  rw [execute_command_no_chain os cmd w h1]
  unfold execute_no_chain
  simp only [h2, Bool.false_eq_true, if_false]
  rw [execute_single_builtin os cmd w name rest h3 hb]
  rcases hn with hn | hn
  · subst hn
    have hbr : builtin_branch (cs "history") = some Builtin.history := by decide
    simp only [exec_builtin, add_history_skips_history, hbr, run_builtin]
    rw [exec_history_keeps_history, log_history]
  · subst hn
    have hbr : builtin_branch (cs "cd") = some Builtin.cd := by decide
    simp only [exec_builtin, add_history_skips_cd, hbr, run_builtin]
    rw [exec_cd_keeps_history, log_history]

/-- C8 (amended) at the line `cd /tmp` with one entry in the history. -/
theorem C8_history_and_cd_not_recorded_witness :
    (strstr_andand (cs "cd /tmp") = false ∧ strchr_pipe (cs "cd /tmp") = false ∧
      single_args (cs "cd /tmp") = cs "cd" :: [cs "/tmp"]) ∧
    (execute_command os_ok (cs "cd /tmp") ⟨[cs "make"], []⟩).2.history = [cs "make"] :=
  ⟨⟨by decide, by decide, by decide⟩,
   C8_history_and_cd_not_recorded os_ok (cs "cd /tmp") ⟨[cs "make"], []⟩ (cs "cd") [cs "/tmp"]
     (by decide) (by decide) (by decide) (Or.inr rfl)⟩

/-! ## C9: built-in or external -/

theorem is_builtin_iff (name : CStr) :
    is_builtin name = true ↔
      name ∈ [cs "cd", cs "exit", cs "about", cs "help", cs "clear", cs "count", cs "history"] := by
  simp [is_builtin, builtins]

/-- The table of execute_command and the `strcmp` chain of exec_builtin know the same names. -/
theorem builtin_branch_isSome (name : CStr) :
    (builtin_branch name).isSome = is_builtin name := by
  unfold builtin_branch
  split_ifs with h1 h2 h3 h4 h5 h6 h7
  · subst h1; decide
  · subst h2; decide
  · subst h3; decide
  · subst h4; decide
  · subst h5; decide
  · subst h6; decide
  · subst h7; decide
  · have : ¬ (is_builtin name = true) := by
      rw [is_builtin_iff]
      simp [h1, h2, h3, h4, h5, h6, h7]
    simpa using this

theorem only_adds_refl (P : Event → Prop) (w : World) : only_adds P w w :=
  ⟨[], by simp, by simp⟩

theorem only_adds_trans {P : Event → Prop} {w1 w2 w3 : World}
    (h12 : only_adds P w1 w2) (h23 : only_adds P w2 w3) : only_adds P w1 w3 := by
  obtain ⟨e1, ht1, hp1⟩ := h12
  obtain ⟨e2, ht2, hp2⟩ := h23
  refine ⟨e1 ++ e2, by rw [ht2, ht1, List.append_assoc], ?_⟩
  intro e he
  rcases List.mem_append.mp he with h | h
  · exact hp1 e h
  · exact hp2 e h

theorem only_adds_log {P : Event → Prop} (w : World) (e : Event) (h : P e) :
    only_adds P w (w.log e) :=
  ⟨[e], rfl, by simpa using h⟩

theorem only_adds_mono {P Q : Event → Prop} {w w1 : World} (h : only_adds P w w1)
    (hpq : ∀ e, P e → Q e) : only_adds Q w w1 := by
  obtain ⟨evs, ht, hp⟩ := h
  exact ⟨evs, ht, fun e he => hpq e (hp e he)⟩

theorem new_events_of_trace (w w1 : World) (evs : List Event)
    (h : w1.trace = w.trace ++ evs) : new_events w w1 = evs := by
  simp [new_events, h]

theorem add_history_only_adds (P : Event → Prop) (command : CStr) (w : World)
    (h : P (Event.persist command)) : only_adds P w (add_command_to_history command w) := by
  unfold add_command_to_history
  split
  · exact only_adds_refl P w
  · split
    · exact only_adds_refl P w
    · split
      · exact ⟨[Event.persist command], rfl, by simpa using h⟩
      · exact only_adds_refl P w

theorem exec_external_only_adds (os : OS) (args : List CStr) (w : World) :
    only_adds Event.is_launch_effect w (exec_external os args w).2 := by
  unfold exec_external
  have h0 := only_adds_log (P := Event.is_launch_effect) w (Event.call_external args) trivial
  cases args with
  | nil => exact h0
  | cons a rest =>
    have h1 := only_adds_trans h0
      (add_history_only_adds Event.is_launch_effect (join_args (a :: rest)) _ trivial)
    simp only
    split
    · exact only_adds_trans h1
        (only_adds_trans (only_adds_log _ (Event.spawn _) trivial)
          (only_adds_log _ (Event.reap _) trivial))
    · exact only_adds_trans h1 (only_adds_log _ Event.fork_failed trivial)

theorem redir_scan_only_adds (os : OS) : ∀ (n k : Nat) (s : RedirState) (w : World),
    only_adds Event.is_launch_effect w (redir_scan os n k s w).2 := by
  intro n
  induction n with
  | zero => intro k s w; exact only_adds_refl _ w
  | succ n ih =>
    intro k s w
    unfold redir_scan
    split
    · exact only_adds_refl _ w
    · split
      · split
        · exact only_adds_trans (only_adds_log w _ (by exact trivial)) (ih _ _ _)
        · exact ih _ _ _
      · split
        · split
          · exact only_adds_trans (only_adds_log w _ (by exact trivial)) (ih _ _ _)
          · exact ih _ _ _
        · exact ih _ _ _

theorem execute_redirect_only_adds (os : OS) (command : CStr) (args : List CStr) (w : World) :
    only_adds Event.is_launch_effect w (execute_redirect os command args w).2 := by
  unfold execute_redirect
  have h0 := redir_scan_only_adds os args.length 0 ⟨args, none, none⟩ w
  simp only
  split
  · have h1 := only_adds_trans h0
      (add_history_only_adds Event.is_launch_effect command _ trivial)
    split
    · exact only_adds_trans h1
        (only_adds_trans (only_adds_log _ (Event.spawn _) trivial)
          (only_adds_log _ (Event.reap _) trivial))
    · exact only_adds_trans h1 (only_adds_log _ Event.fork_failed trivial)
  · exact only_adds_trans h0 (exec_external_only_adds os _ _)

theorem run_builtin_only_adds (os : OS) (b : Builtin) (args : List CStr) (w : World) :
    only_adds (fun _ => True) w (run_builtin os b args w).2 := by
  cases b
  · exact only_adds_log w _ trivial
  · exact only_adds_log w _ trivial
  · exact only_adds_log w _ trivial
  · simp only [run_builtin, exec_count]
    split
    · exact only_adds_log w _ trivial
    · split
      · exact only_adds_trans (only_adds_log w _ trivial) (only_adds_log _ _ trivial)
      · exact only_adds_trans (only_adds_log w _ trivial) (only_adds_log _ _ trivial)
  · simp only [run_builtin, exec_history]
    split
    · exact only_adds_log w _ trivial
    · exact only_adds_log w _ trivial
  · simp only [run_builtin, exec_cd]
    split
    · split
      · exact only_adds_log w _ trivial
      · split
        · exact only_adds_log w _ trivial
        · exact only_adds_trans (only_adds_log w _ trivial) (only_adds_log _ _ trivial)
    · split
      · exact only_adds_log w _ trivial
      · exact only_adds_trans (only_adds_log w _ trivial) (only_adds_log _ _ trivial)
  · exact only_adds_refl _ w

/-- The first effect of exec_builtin is its own entry. -/
theorem exec_builtin_new_events (os : OS) (args : List CStr) (w : World) :
    ∃ evs, new_events w (exec_builtin os args w).2 = Event.call_builtin args :: evs := by
  have hext : only_adds (fun _ => True) (w.log (Event.call_builtin args))
      (exec_builtin os args w).2 := by
    unfold exec_builtin
    cases args with
    | nil => exact only_adds_refl _ _
    | cons a rest =>
      simp only
      have h1 := add_history_only_adds (fun _ => True) a
        (w.log (Event.call_builtin (a :: rest))) trivial
      split
      · exact only_adds_trans h1 (run_builtin_only_adds os _ _ _)
      · exact h1
  obtain ⟨evs, ht, _⟩ := hext
  refine ⟨evs, new_events_of_trace w _ _ ?_⟩
  rw [ht, log_trace, List.append_assoc]
  rfl

/-- A vector without a redirection operator goes through the redirection loop unchanged. -/
theorem redir_scan_no_operator (os : OS) (args : List CStr)
    (hout : cs ">" ∉ args) (hin : cs "<" ∉ args) :
    ∀ (n k : Nat) (infd outfd : Option CStr) (w : World),
      redir_scan os n k ⟨args, infd, outfd⟩ w = (⟨args, infd, outfd⟩, w) := by
  intro n
  induction n with
  | zero => intro k infd outfd w; rfl
  | succ n ih =>
    intro k infd outfd w
    unfold redir_scan
    cases hk : args.get? k with
    | none => rfl
    | some a =>
      have hmem : a ∈ args := List.get?_mem hk
      have h1 : ¬ a = cs ">" := fun h => hout (h ▸ hmem)
      have h2 : ¬ a = cs "<" := fun h => hin (h ▸ hmem)
      simp only [h1, h2, if_false]
      exact ih _ _ _ _

theorem execute_redirect_no_operator (os : OS) (command : CStr) (args : List CStr) (w : World)
    (hout : cs ">" ∉ args) (hin : cs "<" ∉ args) :
    execute_redirect os command args w = exec_external os args w := by
  unfold execute_redirect
  rw [redir_scan_no_operator os args hout hin]
  simp

theorem call_builtin_not_launch_effect (e : Event) (h : e.is_call_builtin = true) :
    ¬ e.is_launch_effect := by
  cases e with
  | call_builtin args => simp [Event.is_launch_effect]
  | _ => simp [Event.is_call_builtin] at h

/-- A single command line that is not sent to the built-ins. -/
theorem execute_single_external (os : OS) (cmd : CStr) (w : World) (name : CStr)
    (rest : List CStr) (h : single_args cmd = name :: rest) (hb : is_builtin name = false) :
    execute_single os cmd w =
      if name = cs "ls" then exec_external os (name :: rest) w
      else execute_redirect os cmd (name :: rest) w := by
  by_cases hls : name = cs "ls"
  · subst hls
    rw [execute_single_ls os cmd w rest h]
    simp
  · unfold execute_single
    simp only [h, hls, hb, if_false, Bool.false_eq_true]

theorem head_take_append_drop (args : List CStr) (k : Nat) (hk : 0 < k) :
    (args.take k ++ args.drop (k + 2)).head? = args.head? := by
  cases args with
  | nil => simp
  | cons a rest =>
    cases k with
    | zero => exact absurd hk (Nat.lt_irrefl 0)
    | succ k => simp

/-- The redirection loop leaves `args[0]` in place when it is not a redirection operator. -/
theorem redir_scan_head (os : OS) (name : CStr) (h1 : ¬ name = cs ">") (h2 : ¬ name = cs "<") :
    ∀ (n k : Nat) (s : RedirState) (w : World), s.args.head? = some name →
      (redir_scan os n k s w).1.args.head? = some name := by
  intro n
  induction n with
  | zero => intro k s w hs; exact hs
  | succ n ih =>
    intro k s w hs
    have hpos : ∀ a, s.args.get? k = some a → (a = cs ">" ∨ a = cs "<") → 0 < k := by
      intro a ha hop
      cases k with
      | zero =>
        exfalso
        have : s.args.head? = some a := by
          rw [← ha]; cases s.args <;> rfl
        rw [hs] at this
        have hna : name = a := Option.some.inj this
        rcases hop with h | h
        · exact h1 (hna.trans h)
        · exact h2 (hna.trans h)
      | succ k => exact Nat.succ_pos k
    unfold redir_scan
    cases hk : s.args.get? k with
    | none => exact hs
    | some a =>
      simp only
      split
      · rename_i hop
        split
        · exact ih _ _ _ (by
            simp only
            rw [head_take_append_drop s.args k (hpos a hk (Or.inl hop))]; exact hs)
        · exact ih _ _ _ hs
      · split
        · rename_i hop
          split
          · exact ih _ _ _ (by
              simp only
              rw [head_take_append_drop s.args k (hpos a hk (Or.inr hop))]; exact hs)
          · exact ih _ _ _ hs
        · exact ih _ _ _ hs

theorem log_children (w : World) (e : Event) :
    (w.log e).trace.filterMap Event.spawned =
      w.trace.filterMap Event.spawned ++ [e].filterMap Event.spawned := by
  rw [log_trace, List.filterMap_append]

theorem add_history_children (command : CStr) (w : World) :
    (add_command_to_history command w).trace.filterMap Event.spawned =
      w.trace.filterMap Event.spawned := by
  unfold add_command_to_history
  split
  · rfl
  · split
    · rfl
    · split
      · rw [log_children]
        simp [Event.spawned]
      · rfl

theorem redir_scan_children (os : OS) : ∀ (n k : Nat) (s : RedirState) (w : World),
    (redir_scan os n k s w).2.trace.filterMap Event.spawned =
      w.trace.filterMap Event.spawned := by
  intro n
  induction n with
  | zero => intro k s w; rfl
  | succ n ih =>
    intro k s w
    unfold redir_scan
    split
    · rfl
    · split
      · split
        · rw [ih, log_children]; simp [Event.spawned]
        · exact ih _ _ _
      · split
        · split
          · rw [ih, log_children]; simp [Event.spawned]
          · exact ih _ _ _
        · exact ih _ _ _

/-- The children of exec_external: exactly the one for its vector when `fork` succeeds, none
(and the result -1) when `fork` fails. -/
theorem exec_external_children (os : OS) (name : CStr) (rest : List CStr) (w : World) :
    ((∀ t, os.fork_ok t = true) →
      (exec_external os (name :: rest) w).2.trace.filterMap Event.spawned =
        w.trace.filterMap Event.spawned ++ [external_child (name :: rest)]) ∧
    ((∀ t, os.fork_ok t = false) →
      (exec_external os (name :: rest) w).1 = -1 ∧
      (exec_external os (name :: rest) w).2.trace.filterMap Event.spawned =
        w.trace.filterMap Event.spawned) := by
  have hready : (add_command_to_history (join_args (name :: rest))
      (w.log (Event.call_external (name :: rest)))).trace.filterMap Event.spawned
        = w.trace.filterMap Event.spawned := by
    rw [add_history_children, log_children]
    simp [Event.spawned]
  constructor
  · intro hfork
    simp only [exec_external, hfork, if_true]
    rw [log_children, log_children, hready]
    simp [Event.spawned, external_child]
  · intro hfork
    simp only [exec_external, hfork, Bool.false_eq_true, if_false]
    refine ⟨trivial, ?_⟩
    rw [log_children, hready]
    simp [Event.spawned]

/-- The children of the redirection code when the first token is not a redirection operator:
exactly one, whose `argv[0]` is that token, when `fork` succeeds, none (and the result -1) when
`fork` fails. -/
theorem execute_redirect_children (os : OS) (command name : CStr) (rest : List CStr) (w : World)
    (h1 : ¬ name = cs ">") (h2 : ¬ name = cs "<") :
    ((∀ t, os.fork_ok t = true) →
      ∃ c, c.argv.head? = some name ∧
        (execute_redirect os command (name :: rest) w).2.trace.filterMap Event.spawned =
          w.trace.filterMap Event.spawned ++ [c]) ∧
    ((∀ t, os.fork_ok t = false) →
      (execute_redirect os command (name :: rest) w).1 = -1 ∧
      (execute_redirect os command (name :: rest) w).2.trace.filterMap Event.spawned =
        w.trace.filterMap Event.spawned) := by
  have hhead := redir_scan_head os name h1 h2 (name :: rest).length 0
    ⟨name :: rest, none, none⟩ w rfl
  have hscan := redir_scan_children os (name :: rest).length 0 ⟨name :: rest, none, none⟩ w
  obtain ⟨rest2, hargs⟩ : ∃ rest2,
      (redir_scan os (name :: rest).length 0 ⟨name :: rest, none, none⟩ w).1.args
        = name :: rest2 := by
    cases hcase : (redir_scan os (name :: rest).length 0 ⟨name :: rest, none, none⟩ w).1.args with
    | nil => rw [hcase] at hhead; simp at hhead
    | cons a rest2 =>
      rw [hcase] at hhead
      have ha : a = name := by simpa using hhead
      exact ⟨rest2, by rw [ha]⟩
  unfold execute_redirect
  generalize redir_scan os (name :: rest).length 0 ⟨name :: rest, none, none⟩ w = R
    at hhead hscan hargs ⊢
  constructor
  · intro hfork
    simp only [hfork, if_true]
    split
    · refine ⟨⟨bind_fd R.1.infd OpenMode.rdonly Stream.inherited,
        bind_fd R.1.outfd OpenMode.wronly_creat_trunc Stream.inherited, R.1.args⟩, hhead, ?_⟩
      rw [log_children, log_children, add_history_children, hscan]
      simp only [Event.spawned, List.filterMap_cons, List.filterMap_nil, List.append_nil]
    · rw [hargs]
      refine ⟨external_child (name :: rest2), rfl, ?_⟩
      rw [(exec_external_children os name rest2 _).1 hfork, hscan]
  · intro hfork
    simp only [hfork, Bool.false_eq_true, if_false]
    split
    · refine ⟨rfl, ?_⟩
      rw [log_children, add_history_children, hscan]
      simp [Event.spawned]
    · rw [hargs]
      obtain ⟨hres, hch⟩ := (exec_external_children os name rest2 R.2).2 hfork
      exact ⟨hres, by rw [hch, hscan]⟩

theorem new_children_of_trace {P : Event → Prop} {w w1 : World} (children : List Child)
    (hext : only_adds P w w1)
    (h : w1.trace.filterMap Event.spawned = w.trace.filterMap Event.spawned ++ children) :
    (new_events w w1).filterMap Event.spawned = children := by
  obtain ⟨evs, ht, _⟩ := hext
  rw [new_events_of_trace w w1 evs ht]
  rw [ht, List.filterMap_append] at h
  exact List.append_cancel_left h

/-- C9, counterexample. On the line `> out.txt foo` the first token `>` is not one of the
seven names, and the program started is `foo`, not the first token; on the line `> out.txt`,
on a system where no file can be opened, no program is started at all. -/
theorem C9_first_token_is_not_the_program :
    is_builtin (cs ">") = false ∧
    single_args (cs "> out.txt foo") = [cs ">", cs "out.txt", cs "foo"] ∧
    execute_command os_ok (cs "> out.txt foo") world_empty =
      (0, ⟨[cs "> out.txt foo"],
           [Event.open_file (some (cs "out.txt")) OpenMode.wronly_creat_trunc true,
            Event.persist (cs "> out.txt foo"),
            Event.spawn ⟨Stream.inherited,
              Stream.file (cs "out.txt") OpenMode.wronly_creat_trunc, [cs "foo"]⟩,
            Event.reap (WaitStatus.exited 0)]⟩) ∧
    execute_command os_no_open (cs "> out.txt") world_empty =
      (-1, ⟨[], [Event.open_file (some (cs "out.txt")) OpenMode.wronly_creat_trunc false,
                 Event.call_external []]⟩) := by
  refine ⟨by decide, by decide, ?_, ?_⟩
  · rw [execute_command_no_chain _ _ _ (by decide)]; decide
  · rw [execute_command_no_chain _ _ _ (by decide)]; decide

/-- C9, amended. For every command line with no chain operator and no pipe whose first token
is `name` (the vector being `name :: rest`): the table test holds exactly for the seven names;
exec_builtin is entered exactly when it holds; when it holds the result is that of
exec_builtin, which takes one of the seven branches of its `strcmp` chain and so never reaches
its final `return 1`; when it fails the line goes to the external launch code (exec_external
for `ls`, the redirection code followed by a launch otherwise), a vector without a redirection
operator is launched by exec_external as it stands, and when the first token is not itself a
redirection operator exactly one child is started, with that token as its `argv[0]`, if `fork`
succeeds, and no child is started and -1 is returned if `fork` fails. -/
theorem C9_dispatch_builtin_or_external (os : OS) (cmd : CStr) (w : World) (name : CStr)
    (rest : List CStr) (h1 : strstr_andand cmd = false) (h2 : strchr_pipe cmd = false)
    (h3 : single_args cmd = name :: rest) :
    (is_builtin name = true ↔
      name ∈ [cs "cd", cs "exit", cs "about", cs "help", cs "clear", cs "count", cs "history"]) ∧
    ((∃ e ∈ new_events w (execute_command os cmd w).2, e.is_call_builtin = true) ↔
      is_builtin name = true) ∧
    (is_builtin name = true →
      execute_command os cmd w = exec_builtin os (name :: rest) w ∧
      ∃ b, builtin_branch name = some b ∧
        exec_builtin os (name :: rest) w =
          run_builtin os b (name :: rest)
            (add_command_to_history name (w.log (Event.call_builtin (name :: rest))))) ∧
    (is_builtin name = false →
      execute_command os cmd w =
        (if name = cs "ls" then exec_external os (name :: rest) w
         else execute_redirect os cmd (name :: rest) w) ∧
      (cs ">" ∉ name :: rest → cs "<" ∉ name :: rest →
        execute_command os cmd w = exec_external os (name :: rest) w) ∧
      (¬ name = cs ">" → ¬ name = cs "<" →
        ((∀ t, os.fork_ok t = true) →
          ∃ c, c.argv.head? = some name ∧
            (new_events w (execute_command os cmd w).2).filterMap Event.spawned = [c]) ∧
        ((∀ t, os.fork_ok t = false) →
          (execute_command os cmd w).1 = -1 ∧
          (new_events w (execute_command os cmd w).2).filterMap Event.spawned = []))) := by
  have hcmd : execute_command os cmd w = execute_single os cmd w := by
    rw [execute_command_no_chain os cmd w h1]
    unfold execute_no_chain
    simp only [h2, Bool.false_eq_true, if_false]
  have hyes : is_builtin name = true →
      execute_command os cmd w = exec_builtin os (name :: rest) w := fun hb => by
    rw [hcmd, execute_single_builtin os cmd w name rest h3 hb]
  have hno : is_builtin name = false →
      execute_command os cmd w =
        (if name = cs "ls" then exec_external os (name :: rest) w
         else execute_redirect os cmd (name :: rest) w) := fun hb => by
    rw [hcmd, execute_single_external os cmd w name rest h3 hb]
  have hadds : is_builtin name = false →
      only_adds Event.is_launch_effect w (execute_command os cmd w).2 := fun hb => by
    rw [hno hb]
    split
    · exact exec_external_only_adds os _ w
    · exact execute_redirect_only_adds os cmd _ w
  refine ⟨is_builtin_iff name, ⟨?_, ?_⟩, ?_, ?_⟩
  · rintro ⟨e, he, hcall⟩
    cases hb : is_builtin name with
    | true => rfl
    | false =>
      exfalso
      obtain ⟨evs, ht, hp⟩ := hadds hb
      rw [new_events_of_trace w _ evs ht] at he
      exact call_builtin_not_launch_effect e hcall (hp e he)
  · intro hb
    obtain ⟨evs, hev⟩ := exec_builtin_new_events os (name :: rest) w
    rw [hyes hb, hev]
    exact ⟨Event.call_builtin (name :: rest), by simp, rfl⟩
  · intro hb
    refine ⟨hyes hb, ?_⟩
    have hsome : (builtin_branch name).isSome = true := by
      rw [builtin_branch_isSome]; exact hb
    obtain ⟨b, hbr⟩ := Option.isSome_iff_exists.mp hsome
    refine ⟨b, hbr, ?_⟩
    simp only [exec_builtin, hbr]
  · intro hb
    refine ⟨hno hb, ?_, ?_⟩
    · intro hout hin
      rw [hno hb]
      split
      · rfl
      · exact execute_redirect_no_operator os cmd _ w hout hin
    · intro hn1 hn2
      have hchildren :
          ((∀ t, os.fork_ok t = true) →
            ∃ c, c.argv.head? = some name ∧
              (execute_command os cmd w).2.trace.filterMap Event.spawned =
                w.trace.filterMap Event.spawned ++ [c]) ∧
          ((∀ t, os.fork_ok t = false) →
            (execute_command os cmd w).1 = -1 ∧
            (execute_command os cmd w).2.trace.filterMap Event.spawned =
              w.trace.filterMap Event.spawned) := by
        rw [hno hb]
        split
        · exact ⟨fun hf => ⟨external_child (name :: rest), rfl,
            (exec_external_children os name rest w).1 hf⟩,
            (exec_external_children os name rest w).2⟩
        · exact execute_redirect_children os cmd name rest w hn1 hn2
      constructor
      · intro hf
        obtain ⟨c, hc, htr⟩ := hchildren.1 hf
        exact ⟨c, hc, new_children_of_trace [c] (hadds hb) htr⟩
      · intro hf
        obtain ⟨hres, htr⟩ := hchildren.2 hf
        exact ⟨hres, new_children_of_trace [] (hadds hb) (by rw [htr, List.append_nil])⟩

/-- C9 (amended) at the lines `count notes.txt` (a built-in) and `grep x notes.txt` (not
one, started as the one child of the line). -/
theorem C9_dispatch_builtin_or_external_witness :
    ((strstr_andand (cs "count notes.txt") = false ∧ strchr_pipe (cs "count notes.txt") = false ∧
        single_args (cs "count notes.txt") = cs "count" :: [cs "notes.txt"]) ∧
      is_builtin (cs "count") = true ∧
      execute_command os_ok (cs "count notes.txt") world_empty =
        exec_builtin os_ok [cs "count", cs "notes.txt"] world_empty) ∧
    ((strstr_andand (cs "grep x notes.txt") = false ∧
        strchr_pipe (cs "grep x notes.txt") = false ∧
        single_args (cs "grep x notes.txt") = cs "grep" :: [cs "x", cs "notes.txt"]) ∧
      is_builtin (cs "grep") = false ∧
      execute_command os_ok (cs "grep x notes.txt") world_empty =
        exec_external os_ok [cs "grep", cs "x", cs "notes.txt"] world_empty ∧
      ∃ c, c.argv.head? = some (cs "grep") ∧
        (new_events world_empty
          (execute_command os_ok (cs "grep x notes.txt") world_empty).2).filterMap
            Event.spawned = [c]) :=
  ⟨⟨⟨by decide, by decide, by decide⟩, by decide,
     ((C9_dispatch_builtin_or_external os_ok (cs "count notes.txt") world_empty (cs "count")
        [cs "notes.txt"] (by decide) (by decide) (by decide)).2.2.1 (by decide)).1⟩,
   ⟨⟨by decide, by decide, by decide⟩, by decide,
     ((C9_dispatch_builtin_or_external os_ok (cs "grep x notes.txt") world_empty (cs "grep")
        [cs "x", cs "notes.txt"] (by decide) (by decide) (by decide)).2.2.2 (by decide)).2.1
       (by decide) (by decide),
     (((C9_dispatch_builtin_or_external os_ok (cs "grep x notes.txt") world_empty (cs "grep")
        [cs "x", cs "notes.txt"] (by decide) (by decide) (by decide)).2.2.2 (by decide)).2.2
       (by decide) (by decide)).1 (fun _ => rfl)⟩⟩

/-! ## C11: an input file that cannot be opened -/

/-- The redirection loop steps over `m` entries that are not redirection operators without
changing anything. -/
theorem redir_scan_skip (os : OS) (args : List CStr) (infd outfd : Option CStr) (w : World) :
    ∀ (m k n : Nat),
      (∀ j a, k ≤ j → j < k + m → args.get? j = some a → ¬ a = cs ">" ∧ ¬ a = cs "<") →
      k + m ≤ args.length →
      redir_scan os (n + m) k ⟨args, infd, outfd⟩ w =
        redir_scan os n (k + m) ⟨args, infd, outfd⟩ w := by
  intro m
  induction m with
  | zero => intro k n _ _; rfl
  | succ m ih =>
    intro k n hops hlen
    have hk : k < args.length := by omega
    obtain ⟨a, ha⟩ : ∃ a, args.get? k = some a := ⟨args.get ⟨k, hk⟩, List.get?_eq_get hk⟩
    obtain ⟨h1, h2⟩ := hops k a (le_refl k) (by omega) ha
    have hstep : redir_scan os (n + m + 1) k ⟨args, infd, outfd⟩ w =
        redir_scan os (n + m) (k + 1) ⟨args, infd, outfd⟩ w := by
      rw [redir_scan]
      simp only [ha, h1, h2, if_false]
    have hih := ih (k + 1) n (fun j b hj1 hj2 hb => hops j b (by omega) (by omega) hb) (by omega)
    rw [show n + (m + 1) = n + m + 1 from rfl, hstep, hih]
    rw [show k + 1 + m = k + (m + 1) by omega]

/-- The redirection loop on a vector with one input redirection whose file cannot be opened:
the two entries are removed and both descriptors stay at -1. -/
theorem redir_scan_failed_input (os : OS) (pre post : List CStr) (f : CStr) (w : World)
    (hpre1 : cs ">" ∉ pre) (hpre2 : cs "<" ∉ pre) (hpost1 : cs ">" ∉ post)
    (hpost2 : cs "<" ∉ post) (hopen : os.open_ok w.trace f OpenMode.rdonly = false) :
    redir_scan os (pre ++ cs "<" :: f :: post).length 0 ⟨pre ++ cs "<" :: f :: post, none, none⟩ w =
      (⟨pre ++ post, none, none⟩, w.log (Event.open_file (some f) OpenMode.rdonly false)) := by
  have hlen : (pre ++ cs "<" :: f :: post).length = (post.length + 1 + 1) + pre.length := by
    simp only [List.length_append, List.length_cons]; omega
  have hskip := redir_scan_skip os (pre ++ cs "<" :: f :: post) none none w pre.length 0
    (post.length + 1 + 1)
    (by
      intro j a _ hj ha
      have hj2 : j < pre.length := by omega
      rw [List.get?_append hj2] at ha
      have hmem : a ∈ pre := List.get?_mem ha
      exact ⟨fun h => hpre1 (h ▸ hmem), fun h => hpre2 (h ▸ hmem)⟩)
    (by simp only [List.length_append, List.length_cons]; omega)
  rw [hlen, hskip, Nat.zero_add]
  have hk : (pre ++ cs "<" :: f :: post).get? pre.length = some (cs "<") := by
    rw [List.get?_append_right (le_refl _)]; simp
  have hk1 : (pre ++ cs "<" :: f :: post).get? (pre.length + 1) = some f := by
    rw [List.get?_append_right (by omega)]; simp
  have hne : ¬ cs "<" = cs ">" := by decide
  have htake : (pre ++ cs "<" :: f :: post).take pre.length
      ++ (pre ++ cs "<" :: f :: post).drop (pre.length + 2) = pre ++ post := by
    rw [List.take_left, List.drop_append]
    simp
  rw [redir_scan]
  simp only [hk, hk1, hne, if_false, if_true, sys_open, hopen, htake, Bool.false_eq_true]
  have hops1 : cs ">" ∉ pre ++ post := by
    intro h; rcases List.mem_append.mp h with h | h
    · exact hpre1 h
    · exact hpost1 h
  have hops2 : cs "<" ∉ pre ++ post := by
    intro h; rcases List.mem_append.mp h with h | h
    · exact hpre2 h
    · exact hpost2 h
  exact redir_scan_no_operator os (pre ++ post) hops1 hops2 _ _ _ _ _

/-- C11, counterexample. On a system where no file can be opened, the line `cat < missing`
starts the program `cat` with the shell's own standard input and returns its exit code 0,
not a negative status. -/
theorem C11_unopened_input_still_runs :
    execute_command os_no_open (cs "cat < missing") world_empty =
      (0, ⟨[cs "cat"],
           [Event.open_file (some (cs "missing")) OpenMode.rdonly false,
            Event.call_external [cs "cat"], Event.persist (cs "cat"),
            Event.spawn ⟨Stream.inherited, Stream.inherited, [cs "cat"]⟩,
            Event.reap (WaitStatus.exited 0)]⟩) := by
  rw [execute_command_no_chain _ _ _ (by decide)]; decide

/-- C11, amended. For every single-stage external command line (the program neither a
built-in nor `ls`) with one redirection `< f` where `f` cannot be opened for reading,
execute_command drops the operator and the file name and hands the remaining vector to
exec_external: the program runs with the shell's own standard input and the status returned
is the one exec_external returns. -/
theorem C11_unopened_input_is_dropped (os : OS) (cmd : CStr) (w : World) (name f : CStr)
    (pre post : List CStr) (h1 : strstr_andand cmd = false) (h2 : strchr_pipe cmd = false)
    (h3 : single_args cmd = name :: (pre ++ cs "<" :: f :: post))
    (hb : is_builtin name = false) (hls : ¬ name = cs "ls")
    (hpre1 : cs ">" ∉ name :: pre) (hpre2 : cs "<" ∉ name :: pre)
    (hpost1 : cs ">" ∉ post) (hpost2 : cs "<" ∉ post)
    (hopen : os.open_ok w.trace f OpenMode.rdonly = false) :
    execute_command os cmd w =
      exec_external os (name :: (pre ++ post))
        (w.log (Event.open_file (some f) OpenMode.rdonly false)) := by
  rw [execute_command_no_chain os cmd w h1]
  unfold execute_no_chain
  simp only [h2, Bool.false_eq_true, if_false]
  rw [execute_single_external os cmd w name _ h3 hb]
  simp only [hls, if_false]
  have hscan := redir_scan_failed_input os (name :: pre) post f w hpre1 hpre2 hpost1 hpost2 hopen
  simp only [List.cons_append] at hscan
  unfold execute_redirect
  rw [hscan]
  simp

/-- C11 (amended) at the line `sort -r < missing` on a system where no file can be opened. -/
theorem C11_unopened_input_is_dropped_witness :
    (strstr_andand (cs "sort -r < missing") = false ∧
      strchr_pipe (cs "sort -r < missing") = false ∧
      single_args (cs "sort -r < missing") =
        cs "sort" :: ([cs "-r"] ++ cs "<" :: cs "missing" :: []) ∧
      os_no_open.open_ok world_empty.trace (cs "missing") OpenMode.rdonly = false) ∧
    execute_command os_no_open (cs "sort -r < missing") world_empty =
      exec_external os_no_open (cs "sort" :: ([cs "-r"] ++ []))
        (world_empty.log (Event.open_file (some (cs "missing")) OpenMode.rdonly false)) :=
  ⟨⟨by decide, by decide, by decide, rfl⟩,
   C11_unopened_input_is_dropped os_no_open (cs "sort -r < missing") world_empty (cs "sort")
     (cs "missing") [cs "-r"] [] (by decide) (by decide) (by decide) (by decide) (by decide)
     (by decide) (by decide) (by decide) (by decide) rfl⟩

/-! ## C12: the status of exec_external -/

/-- The result of exec_external on a vector that is not empty, by the answer of `fork`. -/
theorem exec_external_result (os : OS) (args : List CStr) (w : World) (h : args ≠ []) :
    (exec_external os args w).1 =
      if os.fork_ok (external_ready args w).trace then
        wait_result (exec_status os (external_trace args w) (external_child args))
      else -1 := by
  cases args with
  | nil => exact absurd rfl h
  | cons a rest =>
    simp only [exec_external, external_ready, external_trace, external_child]
    split <;> rfl

/-- C12. For every argument vector that is not empty: when `fork` fails exec_external returns
-1; when it succeeds it returns 127 if `execvp` fails with ENOENT, 1 (`EXIT_FAILURE`) if
`execvp` fails otherwise, the exit code of the program if it exits normally, and -1 if it is
killed; and it returns 0 only when the child was created and the program itself exited with
code 0. -/
theorem C12_exec_external_status (os : OS) (args : List CStr) (w : World) (h : args ≠ []) :
    (os.fork_ok (external_ready args w).trace = false → (exec_external os args w).1 = -1) ∧
    (os.fork_ok (external_ready args w).trace = true →
      (os.execvp (external_trace args w) (external_child args) = ExecOutcome.enoent →
        (exec_external os args w).1 = 127) ∧
      (os.execvp (external_trace args w) (external_child args) = ExecOutcome.failed →
        (exec_external os args w).1 = 1) ∧
      (∀ code : Fin 256,
        os.execvp (external_trace args w) (external_child args)
            = ExecOutcome.ran (WaitStatus.exited code) →
          (exec_external os args w).1 = (code.val : Int)) ∧
      (os.execvp (external_trace args w) (external_child args)
          = ExecOutcome.ran WaitStatus.killed →
        (exec_external os args w).1 = -1)) ∧
    ((exec_external os args w).1 = 0 →
      os.fork_ok (external_ready args w).trace = true ∧
      os.execvp (external_trace args w) (external_child args)
        = ExecOutcome.ran (WaitStatus.exited 0)) := by
  have hres := exec_external_result os args w h
  have hargv : (external_child args).argv = args := rfl
  have hstatus : exec_status os (external_trace args w) (external_child args) =
      match os.execvp (external_trace args w) (external_child args) with
      | ExecOutcome.enoent => WaitStatus.exited 127
      | ExecOutcome.failed => WaitStatus.exited 1
      | ExecOutcome.ran st => st := by
    unfold exec_status
    rw [hargv]
    cases args with
    | nil => exact absurd rfl h
    | cons a rest => rfl
  refine ⟨?_, ?_, ?_⟩
  · intro hf
    rw [hres, hf]; rfl
  · intro hf
    rw [hres, hf, hstatus]
    refine ⟨?_, ?_, ?_, ?_⟩
    · intro he; rw [he]; rfl
    · intro he; rw [he]; rfl
    · intro code he; rw [he]; rfl
    · intro he; rw [he]; rfl
  · intro hzero
    rw [hres] at hzero
    cases hf : os.fork_ok (external_ready args w).trace with
    | false => rw [hf] at hzero; simp at hzero
    | true =>
      refine ⟨rfl, ?_⟩
      rw [hf, hstatus] at hzero
      simp only [if_true] at hzero
      cases he : os.execvp (external_trace args w) (external_child args) with
      | enoent => rw [he] at hzero; exact absurd hzero (by decide)
      | failed => rw [he] at hzero; exact absurd hzero (by decide)
      | ran st =>
        rw [he] at hzero
        cases st with
        | killed => exact absurd hzero (by decide)
        | exited code =>
          simp only [wait_result] at hzero
          have hc : code = 0 := Fin.ext (by exact_mod_cast hzero)
          rw [hc]

/-- C12 at the vector `["grep", "x"]` on a system where every program exits with 0. -/
theorem C12_exec_external_status_witness :
    [cs "grep", cs "x"] ≠ [] ∧
    (exec_external os_ok [cs "grep", cs "x"] world_empty).1 = ((0 : Fin 256).val : Int) :=
  ⟨by decide,
   ((C12_exec_external_status os_ok [cs "grep", cs "x"] world_empty (by decide)).2.1 rfl).2.2.1
     0 rfl⟩

/-! ## C13, C18: what `strtok_r` cuts out -/

theorem split_at_char_ne_nil (d : Char) : ∀ (s cur : CStr), split_at_char d cur s ≠ [] := by
  intro s
  induction s with
  | nil => intro cur; simp [split_at_char]
  | cons c cs ih =>
    intro cur
    unfold split_at_char
    split
    · simp
    · exact ih _

/-- Cutting at `d` loses nothing: the pieces joined by `d` give the string back. -/
theorem split_at_char_join (d : Char) : ∀ (s cur : CStr),
    join_with d (split_at_char d cur s) = cur ++ s := by
  intro s
  induction s with
  | nil => intro cur; simp [split_at_char, join_with]
  | cons c cs ih =>
    intro cur
    unfold split_at_char
    split
    · rename_i hc
      have hne := split_at_char_ne_nil d cs []
      have hih := ih []
      cases hsp : split_at_char d [] cs with
      | nil => exact absurd hsp hne
      | cons q rest =>
        rw [hsp] at hih
        simp only [join_with, hih, List.nil_append, hc]
    · rw [ih]; simp

/-- No piece holds the character the string was cut at. -/
theorem split_at_char_no_delim (d : Char) : ∀ (s cur : CStr), d ∉ cur →
    ∀ p ∈ split_at_char d cur s, d ∉ p := by
  intro s
  induction s with
  | nil =>
    intro cur hcur p hp
    simp only [split_at_char, List.mem_singleton] at hp
    rw [hp]; exact hcur
  | cons c cs ih =>
    intro cur hcur p hp
    unfold split_at_char at hp
    split at hp
    · rcases List.mem_cons.mp hp with h | h
      · rw [h]; exact hcur
      · exact ih [] (by simp) p h
    · rename_i hcd
      refine ih (cur ++ [c]) ?_ p hp
      simp only [List.mem_append, List.mem_singleton, not_or]
      exact ⟨hcur, fun h => hcd h.symm⟩

theorem split_at_char_length (d : Char) : ∀ (s cur : CStr),
    (split_at_char d cur s).length = s.count d + 1 := by
  intro s
  induction s with
  | nil => intro cur; simp [split_at_char]
  | cons c cs ih =>
    intro cur
    unfold split_at_char
    split
    · rename_i hc
      simp [ih, hc]
    · rename_i hc
      have hdc : ¬ d = c := fun h => hc h.symm
      rw [ih]
      simp [List.count_cons, hc]

/-- The tokens of `strtok_r` are the pieces between delimiters that are not empty. -/
theorem strtok_scan_eq_split (d : Char) : ∀ (s cur : CStr),
    strtok_scan d cur s = (split_at_char d cur s).filter (fun p => p ≠ []) := by
  intro s
  induction s with
  | nil =>
    intro cur
    by_cases hcur : cur = [] <;> simp [strtok_scan, split_at_char, hcur]
  | cons c cs ih =>
    intro cur
    unfold strtok_scan split_at_char
    by_cases hc : c = d
    · by_cases hcur : cur = [] <;> simp [hc, hcur, ih]
    · simp only [hc, if_false]
      exact ih _

theorem strtok_all_eq_split (d : Char) (s : CStr) :
    strtok_all d s = (split_at_char d [] s).filter (fun p => p ≠ []) :=
  strtok_scan_eq_split d s []

theorem pipe_collect_fst : ∀ (toks parts : List CStr), parts.length ≤ MAX_PARTS →
    (pipe_collect toks parts).1 = (parts ++ toks.map pipe_trim).take MAX_PARTS := by
  intro toks
  induction toks with
  | nil =>
    intro parts h
    simp only [pipe_collect, List.map_nil, List.append_nil]
    exact (List.take_of_length_le h).symm
  | cons t rest ih =>
    intro parts h
    unfold pipe_collect
    split
    · rename_i hlt
      rw [ih _ (by simp only [List.length_append, List.length_singleton]; omega)]
      simp
    · rename_i hlt
      have heq : parts.length = MAX_PARTS := by omega
      rw [← heq, List.take_left]

theorem pipeline_stages_eq (cmd : CStr) :
    pipeline_stages cmd = ((strtok_all '|' cmd).map pipe_trim).take MAX_PARTS := by
  unfold pipeline_stages
  rw [pipe_collect_fst _ _ (by simp)]
  simp

/-- A stage without a token gives a child with an empty vector, which opens nothing. -/
theorem stage_child_no_token (os : OS) (tok : Option CStr) (pcount pi : Nat)
    (prev_fd : Option Nat) (part : CStr) (w : World) (h : strtok_all ' ' part = []) :
    (stage_child os tok pcount pi prev_fd part w).1.argv = [] ∧
    (stage_child os tok pcount pi prev_fd part w).2 = w := by
  unfold stage_child
  rw [h]
  exact ⟨rfl, rfl⟩

theorem dropWhile_head_false (p : Char → Bool) : ∀ (l : CStr) (c : Char),
    (l.dropWhile p).head? = some c → p c = false := by
  intro l
  induction l with
  | nil => intro c h; simp at h
  | cons a rest ih =>
    intro c h
    by_cases ha : p a = true
    · rw [List.dropWhile_cons_of_pos ha] at h
      exact ih c h
    · rw [List.dropWhile_cons_of_neg ha] at h
      simp only [List.head?_cons, Option.some.injEq] at h
      rw [← h]
      simpa using ha

theorem is_trail_ws_iff (c : Char) :
    is_trail_ws c = true ↔ (c = ' ' ∨ c = '\t' ∨ c = '\n' ∨ c = '\r') := by
  simp only [is_trail_ws, Bool.or_eq_true, beq_iff_eq]
  tauto

/-- The trailing trim removes a run of whitespace at the end. -/
theorem trim_trailing_split (l : CStr) :
    ∃ trail, l = trim_trailing l ++ trail ∧ ∀ c ∈ trail, is_trail_ws c = true := by
  cases l with
  | nil => exact ⟨[], rfl, by simp⟩
  | cons a cs =>
    refine ⟨(cs.reverse.takeWhile is_trail_ws).reverse, ?_, ?_⟩
    · have h := List.takeWhile_append_dropWhile is_trail_ws cs.reverse
      have h2 : cs = (cs.reverse.dropWhile is_trail_ws).reverse
          ++ (cs.reverse.takeWhile is_trail_ws).reverse := by
        rw [← List.reverse_append, h, List.reverse_reverse]
      simp only [trim_trailing, List.cons_append]
      rw [← h2]
    · intro c hc
      exact List.mem_takeWhile_imp (List.mem_reverse.mp hc)

/-- After the trailing trim the last character is whitespace only when it is also the first. -/
theorem trim_trailing_last (l : CStr) (c : Char)
    (h : (trim_trailing l).getLast? = some c) (hws : is_trail_ws c = true) :
    (trim_trailing l).length = 1 := by
  cases l with
  | nil => simp [trim_trailing] at h
  | cons a cs =>
    cases hr : cs.reverse.dropWhile is_trail_ws with
    | nil => simp [trim_trailing, hr]
    | cons x r =>
      exfalso
      have hx : is_trail_ws x = false :=
        dropWhile_head_false is_trail_ws cs.reverse x (by rw [hr]; rfl)
      simp only [trim_trailing, hr, List.reverse_cons] at h
      rw [← List.cons_append, List.getLast?_append_cons, List.getLast?_singleton] at h
      have hcx : x = c := Option.some.inj h
      rw [hcx, hws] at hx
      exact absurd hx (by decide)

theorem trim_trailing_eq_nil (l : CStr) : trim_trailing l = [] ↔ l = [] := by
  cases l <;> simp [trim_trailing]

theorem trim_trailing_head (l : CStr) : (trim_trailing l).head? = l.head? := by
  cases l <;> rfl

theorem strtok_scan_eq_nil (d : Char) : ∀ (s cur : CStr),
    strtok_scan d cur s = [] ↔ (cur = [] ∧ ∀ c ∈ s, c = d) := by
  intro s
  induction s with
  | nil => intro cur; by_cases h : cur = [] <;> simp [strtok_scan, h]
  | cons a rest ih =>
    intro cur
    unfold strtok_scan
    by_cases ha : a = d
    · by_cases hcur : cur = []
      · simp [ha, hcur, ih]
      · simp [ha, hcur]
    · simp only [ha, if_false, ih]
      simp [ha]

/-- What the trim of the pipeline splitting loop does to a piece: it removes a run of spaces
at the front and a run of spaces, tabs, newlines and carriage returns at the end; what is left
does not start with a space, and ends in such a character only when that is its only
character; nothing is left exactly when the piece holds only spaces, and that is also exactly
when the stage has no token. -/
theorem pipe_trim_spec (t : CStr) :
    (∃ lead trail, t = lead ++ pipe_trim t ++ trail ∧ (∀ c ∈ lead, c = ' ') ∧
      (∀ c ∈ trail, c = ' ' ∨ c = '\t' ∨ c = '\n' ∨ c = '\r')) ∧
    ¬ (pipe_trim t).head? = some ' ' ∧
    (∀ c, (pipe_trim t).getLast? = some c → (c = ' ' ∨ c = '\t' ∨ c = '\n' ∨ c = '\r') →
      (pipe_trim t).length = 1) ∧
    (pipe_trim t = [] ↔ ∀ c ∈ t, c = ' ') ∧
    (strtok_all ' ' (pipe_trim t) = [] ↔ ∀ c ∈ t, c = ' ') := by
  have hhead : ¬ (pipe_trim t).head? = some ' ' := by
    intro h
    unfold pipe_trim at h
    rw [trim_trailing_head] at h
    have := dropWhile_head_false (fun c => c == ' ') t ' ' h
    simp at this
  have hnil : pipe_trim t = [] ↔ ∀ c ∈ t, c = ' ' := by
    unfold pipe_trim
    rw [trim_trailing_eq_nil, List.dropWhile_eq_nil_iff]
    simp
  refine ⟨?_, hhead, ?_, hnil, ?_⟩
  · obtain ⟨trail, htrail, hws⟩ := trim_trailing_split (t.dropWhile (fun c => c == ' '))
    refine ⟨t.takeWhile (fun c => c == ' '), trail, ?_, ?_, ?_⟩
    · have h := List.takeWhile_append_dropWhile (fun c => c == ' ') t
      unfold pipe_trim
      rw [List.append_assoc, ← htrail, h]
    · intro c hc
      simpa using List.mem_takeWhile_imp hc
    · intro c hc
      exact (is_trail_ws_iff c).mp (hws c hc)
  · intro c hc hws
    exact trim_trailing_last _ c hc ((is_trail_ws_iff c).mpr hws)
  · unfold strtok_all
    rw [strtok_scan_eq_nil]
    constructor
    · rintro ⟨_, hall⟩
      apply hnil.mp
      cases hp : pipe_trim t with
      | nil => rfl
      | cons a rest =>
        exfalso
        rw [hp] at hhead hall
        exact hhead (by rw [hall a (by simp)]; rfl)
    · intro hall
      rw [hnil.mpr hall]
      exact ⟨rfl, by simp⟩

/-- C13, counterexample. The line `a || b` holds two pipe characters and has two stages,
`a` and `b`, not three: `strtok_r` returns no token for the empty piece between the two
adjacent pipe characters, so only two children are launched. And in `a | <TAB> | b` the middle
piece is not trimmed to nothing: the stage is `<TAB>`, it has one token, and a program of
that name is started. -/
theorem C13_adjacent_pipes_make_no_stage :
    (cs "a || b").count '|' = 2 ∧
    pipeline_stages (cs "a || b") = [cs "a", cs "b"] ∧
    execute_command os_ok (cs "a || b") world_empty =
      (0, ⟨[], [Event.pipe_created 0,
                Event.spawn ⟨Stream.inherited, Stream.pipe_write 0, [cs "a"]⟩,
                Event.spawn ⟨Stream.pipe_read 0, Stream.inherited, [cs "b"]⟩,
                Event.reap (WaitStatus.exited 0), Event.reap (WaitStatus.exited 0)]⟩) ∧
    pipeline_stages (cs "a | \t | b") = [cs "a", cs "\t", cs "b"] ∧
    execute_command os_ok (cs "a | \t | b") world_empty =
      (0, ⟨[], [Event.pipe_created 0,
                Event.spawn ⟨Stream.inherited, Stream.pipe_write 0, [cs "a"]⟩,
                Event.pipe_created 1,
                Event.spawn ⟨Stream.pipe_read 0, Stream.pipe_write 1, [cs "\t"]⟩,
                Event.spawn ⟨Stream.pipe_read 1, Stream.inherited, [cs "b"]⟩,
                Event.reap (WaitStatus.exited 0), Event.reap (WaitStatus.exited 0),
                Event.reap (WaitStatus.exited 0)]⟩) := by
  refine ⟨by decide, by decide, ?_, by decide, ?_⟩
  · rw [execute_command_no_chain _ _ _ (by decide)]; decide
  · rw [execute_command_no_chain _ _ _ (by decide)]; decide

/-- C13, amended. For every sub-command containing a pipe character, cut it at every pipe
character (the pieces joined by pipe characters give the sub-command back and none holds a
pipe character): the stage list is the list of the pieces that are not empty, each trimmed,
up to the limit of 32, so there are at most as many stages as pipe characters plus one. The
trim removes a run of spaces at the front and a run of spaces, tabs, newlines and carriage
returns at the end, but never the first remaining character: the trimmed stage does not start
with a space, and it ends in a space, tab, newline or carriage return only when that is its
only character. A stage has zero tokens exactly when its piece holds only spaces (the trimmed
stage is then empty); such a stage, as the one between the pipe characters of `a | | b`, is a
stage of its own whose child gets an empty vector, opens no file, and exits with status 0
without calling `execvp`. -/
theorem C13_pipeline_stage_list (cmd : CStr) :
    join_with '|' (split_at_char '|' [] cmd) = cmd ∧
    (∀ p ∈ split_at_char '|' [] cmd, '|' ∉ p) ∧
    pipeline_stages cmd =
      (((split_at_char '|' [] cmd).filter (fun p => p ≠ [])).map pipe_trim).take MAX_PARTS ∧
    (pipeline_stages cmd).length ≤ cmd.count '|' + 1 ∧
    (pipeline_stages cmd).length ≤ MAX_PARTS ∧
    (∀ (os : OS) (tok : Option CStr) (pcount pi : Nat) (prev_fd : Option Nat) (part : CStr)
        (w : World) (t : List Event), strtok_all ' ' part = [] →
      (stage_child os tok pcount pi prev_fd part w).1.argv = [] ∧
      (stage_child os tok pcount pi prev_fd part w).2 = w ∧
      stage_status os t (stage_child os tok pcount pi prev_fd part w).1 = WaitStatus.exited 0) ∧
    (∀ piece : CStr,
      (∃ lead trail, piece = lead ++ pipe_trim piece ++ trail ∧ (∀ c ∈ lead, c = ' ') ∧
        (∀ c ∈ trail, c = ' ' ∨ c = '\t' ∨ c = '\n' ∨ c = '\r')) ∧
      ¬ (pipe_trim piece).head? = some ' ' ∧
      (∀ c, (pipe_trim piece).getLast? = some c →
        (c = ' ' ∨ c = '\t' ∨ c = '\n' ∨ c = '\r') → (pipe_trim piece).length = 1) ∧
      (pipe_trim piece = [] ↔ ∀ c ∈ piece, c = ' ') ∧
      (strtok_all ' ' (pipe_trim piece) = [] ↔ ∀ c ∈ piece, c = ' ')) := by
  have hstages : pipeline_stages cmd =
      (((split_at_char '|' [] cmd).filter (fun p => p ≠ [])).map pipe_trim).take MAX_PARTS := by
    rw [pipeline_stages_eq, strtok_all_eq_split]
  refine ⟨by simpa using split_at_char_join '|' cmd [],
    split_at_char_no_delim '|' cmd [] (by simp), hstages, ?_, ?_, ?_, pipe_trim_spec⟩
  · rw [hstages, List.length_take, List.length_map]
    exact le_trans (Nat.min_le_right _ _)
      (le_trans (List.length_filter_le _ _) (le_of_eq (split_at_char_length '|' cmd [])))
  · rw [hstages, List.length_take]
    omega
  · intro os tok pcount pi prev_fd part w t h
    obtain ⟨ha, hw⟩ := stage_child_no_token os tok pcount pi prev_fd part w h
    refine ⟨ha, hw, ?_⟩
    unfold stage_status
    rw [ha]
    rfl

/-- C13 (amended) on the line `a | | b`: three stages, the middle one without a token, whose
child exits with status 0. -/
theorem C13_pipeline_stage_list_witness :
    pipeline_stages (cs "a | | b") = [cs "a", [], cs "b"] ∧
    strtok_all ' ' [] = [] ∧
    stage_status os_ok [] (stage_child os_ok none 3 1 (some 0) [] world_empty).1
      = WaitStatus.exited 0 ∧
    execute_command os_ok (cs "a | | b") world_empty =
      (0, ⟨[], [Event.pipe_created 0,
                Event.spawn ⟨Stream.inherited, Stream.pipe_write 0, [cs "a"]⟩,
                Event.pipe_created 1,
                Event.spawn ⟨Stream.pipe_read 0, Stream.pipe_write 1, []⟩,
                Event.spawn ⟨Stream.pipe_read 1, Stream.inherited, [cs "b"]⟩,
                Event.reap (WaitStatus.exited 0), Event.reap (WaitStatus.exited 0),
                Event.reap (WaitStatus.exited 0)]⟩) := by
  refine ⟨by decide, by decide,
    ((C13_pipeline_stage_list (cs "a | | b")).2.2.2.2.2.1 os_ok none 3 1 (some 0) [] world_empty []
      (by decide)).2.2, ?_⟩
  rw [execute_command_no_chain _ _ _ (by decide)]; decide

/-- A stage without a redirection operator: the token loop stores the tokens, up to 255, and
opens nothing. -/
theorem stage_scan_no_operator (os : OS) (tok : Option CStr) :
    ∀ (toks : List CStr) (s : StageState) (w : World),
      cs ">" ∉ toks → cs "<" ∉ toks → s.argv.length ≤ MAX_ARGS - 1 →
      stage_scan os tok toks s w =
        (⟨(s.argv ++ toks).take (MAX_ARGS - 1), s.infd, s.outfd⟩, w) := by
  intro toks
  induction toks with
  | nil =>
    intro s w _ _ hlen
    simp only [stage_scan, List.append_nil]
    rw [List.take_of_length_le hlen]
  | cons tk rest ih =>
    intro s w hout hin hlen
    have h1 : ¬ tk = cs ">" := fun h => hout (by simp [h])
    have h2 : ¬ tk = cs "<" := fun h => hin (by simp [h])
    by_cases hlt : s.argv.length < MAX_ARGS - 1
    · unfold stage_scan
      simp only [hlt, h1, h2, if_true, if_false]
      rw [ih _ w (fun h => hout (List.mem_cons_of_mem _ h))
        (fun h => hin (List.mem_cons_of_mem _ h))
        (by simp only [List.length_append, List.length_singleton]; omega)]
      simp
    · have heq : s.argv.length = MAX_ARGS - 1 := by omega
      unfold stage_scan
      simp only [hlt, if_false]
      rw [← heq, List.take_left]

theorem stage_child_no_operator (os : OS) (tok : Option CStr) (pcount pi : Nat)
    (prev_fd : Option Nat) (part : CStr) (w : World)
    (hout : cs ">" ∉ strtok_all ' ' part) (hin : cs "<" ∉ strtok_all ' ' part) :
    stage_child os tok pcount pi prev_fd part w =
      (⟨(match prev_fd with
          | some i => Stream.pipe_read i
          | none => Stream.inherited),
        (if pi < pcount - 1 then Stream.pipe_write pi else Stream.inherited),
        (strtok_all ' ' part).take (MAX_ARGS - 1)⟩, w) := by
  unfold stage_child
  rw [stage_scan_no_operator os tok _ _ w hout hin (by simp)]
  simp [bind_fd]

/-- C18, counterexample. The line `echo<TAB>hi` is one token: the program started is named
`echo<TAB>hi` and gets no argument. -/
theorem C18_tab_does_not_separate :
    single_args (cs "echo\thi") = [cs "echo\thi"] ∧
    execute_command os_ok (cs "echo\thi") world_empty =
      (0, ⟨[cs "echo\thi"],
           [Event.call_external [cs "echo\thi"], Event.persist (cs "echo\thi"),
            Event.spawn ⟨Stream.inherited, Stream.inherited, [cs "echo\thi"]⟩,
            Event.reap (WaitStatus.exited 0)]⟩) := by
  refine ⟨by decide, ?_⟩
  rw [execute_command_no_chain _ _ _ (by decide)]; decide

/-- C18, amended. For every stage string, cut it at every space (the pieces joined by spaces
give the string back and none holds a space): the program name and argument list produced by
execute_command are the pieces that are not empty, that is the maximal runs of characters
other than the space, in order and up to 255 of them, both for a single command and for a
pipeline stage without redirection operator; the tab is not a separator. -/
theorem C18_tokens_are_runs_of_non_spaces (s : CStr) :
    join_with ' ' (split_at_char ' ' [] s) = s ∧
    (∀ p ∈ split_at_char ' ' [] s, ' ' ∉ p) ∧
    single_args s = ((split_at_char ' ' [] s).filter (fun p => p ≠ [])).take (MAX_ARGS - 1) ∧
    (∀ (os : OS) (tok : Option CStr) (pcount pi : Nat) (prev_fd : Option Nat) (w : World),
      cs ">" ∉ strtok_all ' ' s → cs "<" ∉ strtok_all ' ' s →
      (stage_child os tok pcount pi prev_fd s w).1.argv =
        ((split_at_char ' ' [] s).filter (fun p => p ≠ [])).take (MAX_ARGS - 1)) := by
  refine ⟨by simpa using split_at_char_join ' ' s [],
    split_at_char_no_delim ' ' s [] (by simp), ?_, ?_⟩
  · unfold single_args
    rw [strtok_all_eq_split]
  · intro os tok pcount pi prev_fd w hout hin
    rw [stage_child_no_operator os tok pcount pi prev_fd s w hout hin, strtok_all_eq_split]

/-- C18 (amended) at the stage string `wc  -l` (two spaces). -/
theorem C18_tokens_are_runs_of_non_spaces_witness :
    (cs ">" ∉ strtok_all ' ' (cs "wc  -l") ∧ cs "<" ∉ strtok_all ' ' (cs "wc  -l")) ∧
    (split_at_char ' ' [] (cs "wc  -l")).filter (fun p => p ≠ []) = [cs "wc", cs "-l"] ∧
    (stage_child os_ok none 2 1 (some 0) (cs "wc  -l") world_empty).1.argv =
      ((split_at_char ' ' [] (cs "wc  -l")).filter (fun p => p ≠ [])).take (MAX_ARGS - 1) :=
  ⟨⟨by decide, by decide⟩, by decide,
   (C18_tokens_are_runs_of_non_spaces (cs "wc  -l")).2.2.2 os_ok none 2 1 (some 0) world_empty
     (by decide) (by decide)⟩

/-! ## C14: what is recorded in the history -/

theorem strtok_all_token_ne_nil (d : Char) (s t : CStr) (h : t ∈ strtok_all d s) : t ≠ [] := by
  rw [strtok_all_eq_split] at h
  simpa using (List.mem_filter.mp h).2

theorem single_args_token_ne_nil (cmd t : CStr) (h : t ∈ single_args cmd) : t ≠ [] :=
  strtok_all_token_ne_nil ' ' cmd t (List.mem_of_mem_take h)

theorem join_args_ne_nil (name : CStr) (rest : List CStr) (h : name ≠ []) :
    join_args (name :: rest) ≠ [] := by
  cases rest with
  | nil => simpa [join_args] using h
  | cons b rest => simp [join_args]

theorem join_args_has_space (name b : CStr) (rest : List CStr) :
    ' ' ∈ join_args (name :: b :: rest) := by
  simp [join_args]

/-- The joined text of a vector is `history` or `cd` only when the vector is that one word. -/
theorem join_args_eq_word (name : CStr) (rest : List CStr) (word : CStr) (hw : ' ' ∉ word)
    (h : join_args (name :: rest) = word) : name = word := by
  cases rest with
  | nil => simpa [join_args] using h
  | cons b rest =>
    exfalso
    have := join_args_has_space name b rest
    rw [h] at this
    exact hw this

/-- The history after add_command_to_history. -/
theorem add_history_history (command : CStr) (w : World) :
    (add_command_to_history command w).history =
      if command = [] ∨ command = cs "history" ∨ command = cs "cd"
          ∨ ¬ w.history.length < MAX_HISTORY then w.history
      else w.history ++ [command] := by
  unfold add_command_to_history
  by_cases h0 : command = []
  · have hlen : command.length = 0 := by rw [h0]; rfl
    rw [if_pos hlen, if_pos (Or.inl h0)]
  · have hlen : ¬ command.length = 0 := fun h => h0 (List.length_eq_zero.mp h)
    rw [if_neg hlen]
    by_cases h1 : command = cs "history" ∨ command = cs "cd"
    · rw [if_pos h1, if_pos (by tauto)]
    · rw [if_neg h1]
      by_cases h2 : w.history.length < MAX_HISTORY
      · rw [if_pos h2, if_neg (by tauto)]
        rfl
      · rw [if_neg h2, if_pos (by tauto)]

theorem add_history_appends (command : CStr) (w : World) (h0 : command ≠ [])
    (h1 : command ≠ cs "history") (h2 : command ≠ cs "cd")
    (h3 : w.history.length < MAX_HISTORY) :
    (add_command_to_history command w).history = w.history ++ [command] := by
  rw [add_history_history]
  have : ¬ (command = [] ∨ command = cs "history" ∨ command = cs "cd"
      ∨ ¬ w.history.length < MAX_HISTORY) := by tauto
  simp only [this, if_false]

theorem exec_external_history (os : OS) (name : CStr) (rest : List CStr) (w : World) :
    (exec_external os (name :: rest) w).2.history =
      (add_command_to_history (join_args (name :: rest)) w).history := by
  have hlog : (add_command_to_history (join_args (name :: rest))
        (w.log (Event.call_external (name :: rest)))).history
      = (add_command_to_history (join_args (name :: rest)) w).history := by
    rw [add_history_history, add_history_history]; rfl
  unfold exec_external
  simp only
  split
  · exact hlog
  · exact hlog

theorem run_builtin_keeps_history (os : OS) (b : Builtin) (args : List CStr) (w : World) :
    (run_builtin os b args w).2.history = w.history := by
  cases b
  · rfl
  · rfl
  · rfl
  · simp only [run_builtin, exec_count]
    split
    · rfl
    · split <;> rfl
  · exact exec_history_keeps_history args w
  · exact exec_cd_keeps_history os args w
  · rfl

theorem exec_builtin_history (os : OS) (name : CStr) (rest : List CStr) (w : World)
    (hb : is_builtin name = true) :
    (exec_builtin os (name :: rest) w).2.history = (add_command_to_history name w).history := by
  have hsome : (builtin_branch name).isSome = true := by
    rw [builtin_branch_isSome]; exact hb
  obtain ⟨b, hbr⟩ := Option.isSome_iff_exists.mp hsome
  simp only [exec_builtin, hbr]
  rw [run_builtin_keeps_history, add_history_history, add_history_history]
  rfl

theorem redir_scan_history (os : OS) : ∀ (n k : Nat) (s : RedirState) (w : World),
    (redir_scan os n k s w).2.history = w.history := by
  intro n
  induction n with
  | zero => intro k s w; rfl
  | succ n ih =>
    intro k s w
    unfold redir_scan
    split
    · rfl
    · split
      · split
        · rw [ih, log_history]
        · exact ih _ _ _
      · split
        · split
          · rw [ih, log_history]
          · exact ih _ _ _
        · exact ih _ _ _

/-- The history after the redirection code when a file was opened: the line as typed is
handed to add_command_to_history. -/
theorem execute_redirect_history_opened (os : OS) (command : CStr) (args : List CStr) (w : World)
    (hfd : ((redir_scan os args.length 0 ⟨args, none, none⟩ w).1.infd.isSome
      || (redir_scan os args.length 0 ⟨args, none, none⟩ w).1.outfd.isSome) = true) :
    (execute_redirect os command args w).2.history =
      (add_command_to_history command w).history := by
  have hhist := redir_scan_history os args.length 0 ⟨args, none, none⟩ w
  have hadd : (add_command_to_history command
      (redir_scan os args.length 0 ⟨args, none, none⟩ w).2).history
        = (add_command_to_history command w).history := by
    rw [add_history_history, add_history_history, hhist]
  unfold execute_redirect
  simp only [hfd, if_true]
  split
  · exact hadd
  · exact hadd

set_option maxRecDepth 20000 in
/-- C14, counterexample. With 50 entries stored, the line `grep x` is launched and appends
nothing: add_command_to_history stores an entry only while `history_count < MAX_HISTORY`. And
the line `count notes.txt`, dispatched to the built-in and returning 0, is recorded as
`count`: exec_builtin hands `args[0]` to add_command_to_history. -/
theorem C14_entry_missing_or_shortened :
    execute_command os_ok (cs "grep x") ⟨List.replicate 50 (cs "ls"), []⟩ =
      (0, ⟨List.replicate 50 (cs "ls"),
           [Event.call_external [cs "grep", cs "x"],
            Event.spawn ⟨Stream.inherited, Stream.inherited, [cs "grep", cs "x"]⟩,
            Event.reap (WaitStatus.exited 0)]⟩) ∧
    execute_command (os_file (bytes_of "x\n")) (cs "count notes.txt") world_empty =
      (0, ⟨[cs "count"],
           [Event.call_builtin [cs "count", cs "notes.txt"], Event.persist (cs "count"),
            Event.fopen (cs "notes.txt") true,
            Event.print (Output.count_report (cs "notes.txt") 2 1 2)]⟩) ∧
    ¬ ((execute_command (os_file (bytes_of "x\n")) (cs "count notes.txt") world_empty).2.history
        = world_empty.history ++ [cs "count notes.txt"]) := by
  rw [execute_command_no_chain _ _ _ (by decide), execute_command_no_chain _ _ _ (by decide)]
  exact ⟨by decide, by decide, by decide⟩

/-- C14, amended. For every single-stage command whose program name is not `history`, `cd` or
`exit`, run while the history holds fewer than 50 entries, execute_command appends exactly one
entry to the end of the history log, and that entry is the command's text, in these cases: a
built-in given without arguments, an external command without redirection operator, and `ls`
with any arguments are recorded as the program name together with its arguments, joined by
single spaces; an external command other than `ls` whose redirection loop ends with a file
opened (as `echo hi > out.txt` when the file can be opened) is recorded as the line as
typed; and an external command other than `ls`, whose name is not itself `>` or `<`, whose
redirection loop ends with no file opened is recorded as the program name together with the
arguments that the loop left in the vector, joined by single spaces. -/
theorem C14_command_text_recorded (os : OS) (cmd : CStr) (w : World) (name : CStr)
    (rest : List CStr) (h1 : strstr_andand cmd = false) (h2 : strchr_pipe cmd = false)
    (h3 : single_args cmd = name :: rest)
    (hname : ¬ name = cs "history" ∧ ¬ name = cs "cd" ∧ ¬ name = cs "exit")
    (hroom : w.history.length < MAX_HISTORY) :
    (is_builtin name = true → rest = [] →
      (execute_command os cmd w).2.history = w.history ++ [join_args (name :: rest)]) ∧
    (is_builtin name = false → cs ">" ∉ name :: rest → cs "<" ∉ name :: rest →
      (execute_command os cmd w).2.history = w.history ++ [join_args (name :: rest)]) ∧
    (name = cs "ls" →
      (execute_command os cmd w).2.history = w.history ++ [join_args (name :: rest)]) ∧
    (is_builtin name = false → ¬ name = cs "ls" →
      ((redir_scan os (name :: rest).length 0 ⟨name :: rest, none, none⟩ w).1.infd.isSome
        || (redir_scan os (name :: rest).length 0 ⟨name :: rest, none, none⟩ w).1.outfd.isSome)
          = true →
      (execute_command os cmd w).2.history = w.history ++ [cmd]) ∧
    (is_builtin name = false → ¬ name = cs "ls" → ¬ name = cs ">" → ¬ name = cs "<" →
      ((redir_scan os (name :: rest).length 0 ⟨name :: rest, none, none⟩ w).1.infd.isSome
        || (redir_scan os (name :: rest).length 0 ⟨name :: rest, none, none⟩ w).1.outfd.isSome)
          = false →
      (redir_scan os (name :: rest).length 0 ⟨name :: rest, none, none⟩ w).1.args.head?
          = some name ∧
        (execute_command os cmd w).2.history = w.history ++
          [join_args (redir_scan os (name :: rest).length 0 ⟨name :: rest, none, none⟩ w).1.args])
    := by
  have hne : name ≠ [] := single_args_token_ne_nil cmd name (by rw [h3]; simp)
  have hcmd : execute_command os cmd w = execute_single os cmd w := by
    rw [execute_command_no_chain os cmd w h1]
    unfold execute_no_chain
    simp only [h2, Bool.false_eq_true, if_false]
  have hjoin : (add_command_to_history (join_args (name :: rest)) w).history
      = w.history ++ [join_args (name :: rest)] := by
    refine add_history_appends _ w (join_args_ne_nil name rest hne) ?_ ?_ hroom
    · intro h
      exact hname.1 (join_args_eq_word name rest (cs "history") (by decide) h)
    · intro h
      exact hname.2.1 (join_args_eq_word name rest (cs "cd") (by decide) h)
  refine ⟨?_, ?_, ?_, ?_, ?_⟩
  · intro hb hrest
    subst hrest
    rw [hcmd, execute_single_builtin os cmd w name [] h3 hb, exec_builtin_history os name [] w hb]
    exact add_history_appends name w hne hname.1 hname.2.1 hroom
  · intro hb hout hin
    have hext : execute_single os cmd w = exec_external os (name :: rest) w := by
      rw [execute_single_external os cmd w name rest h3 hb]
      split
      · rfl
      · exact execute_redirect_no_operator os cmd _ w hout hin
    rw [hcmd, hext, exec_external_history, hjoin]
  · intro hls
    have hb : is_builtin name = false := by rw [hls]; decide
    rw [hcmd, execute_single_external os cmd w name rest h3 hb]
    simp only [hls, if_true]
    rw [exec_external_history, ← hls, hjoin]
  · intro hb hls hfd
    have hc0 : cmd ≠ [] := by
      intro h
      rw [h] at h3
      have h4 : single_args ([] : CStr) = [] := by decide
      rw [h4] at h3
      exact List.noConfusion h3
    have hc1 : cmd ≠ cs "history" := by
      intro h
      rw [h] at h3
      have h4 : single_args (cs "history") = [cs "history"] := by decide
      rw [h4] at h3
      exact hname.1 (List.cons.inj h3).1.symm
    have hc2 : cmd ≠ cs "cd" := by
      intro h
      rw [h] at h3
      have h4 : single_args (cs "cd") = [cs "cd"] := by decide
      rw [h4] at h3
      exact hname.2.1 (List.cons.inj h3).1.symm
    rw [hcmd, execute_single_external os cmd w name rest h3 hb]
    simp only [hls, if_false]
    rw [execute_redirect_history_opened os cmd (name :: rest) w hfd]
    exact add_history_appends cmd w hc0 hc1 hc2 hroom
  · intro hb hls hgt hlt hfd
    have hhead := redir_scan_head os name hgt hlt (name :: rest).length 0
      ⟨name :: rest, none, none⟩ w rfl
    have hhist := redir_scan_history os (name :: rest).length 0 ⟨name :: rest, none, none⟩ w
    refine ⟨hhead, ?_⟩
    rw [hcmd, execute_single_external os cmd w name rest h3 hb]
    simp only [hls, if_false]
    unfold execute_redirect
    simp only [hfd, Bool.false_eq_true, if_false]
    generalize redir_scan os (name :: rest).length 0 ⟨name :: rest, none, none⟩ w = R
      at hhead hhist ⊢
    cases hargs : R.1.args with
    | nil => rw [hargs] at hhead; exact absurd hhead (by simp)
    | cons a rest2 =>
      rw [hargs] at hhead
      have ha : a = name := by simpa using hhead
      subst ha
      rw [exec_external_history, add_history_history, hhist]
      have hno : ¬ (join_args (a :: rest2) = [] ∨ join_args (a :: rest2) = cs "history"
          ∨ join_args (a :: rest2) = cs "cd" ∨ ¬ w.history.length < MAX_HISTORY) := by
        intro h
        rcases h with h | h | h | h
        · exact join_args_ne_nil a rest2 hne h
        · exact hname.1 (join_args_eq_word a rest2 (cs "history") (by decide) h)
        · exact hname.2.1 (join_args_eq_word a rest2 (cs "cd") (by decide) h)
        · exact h hroom
      simp only [hno, if_false]

/-- C14 (amended) at the lines `grep  x notes.txt` and `echo hi > out.txt`, each after the
entry `make`; the second one also on a system where no file can be opened. -/
theorem C14_command_text_recorded_witness :
    ((strstr_andand (cs "echo hi > out.txt") = false ∧
        strchr_pipe (cs "echo hi > out.txt") = false ∧
        single_args (cs "echo hi > out.txt") = cs "echo" :: [cs "hi", cs ">", cs "out.txt"] ∧
        is_builtin (cs "echo") = false) ∧
      (execute_command os_no_open (cs "echo hi > out.txt") ⟨[cs "make"], []⟩).2.history =
        [cs "make"] ++ [cs "echo hi"]) ∧
    ((strstr_andand (cs "grep  x notes.txt") = false ∧
        strchr_pipe (cs "grep  x notes.txt") = false ∧
        single_args (cs "grep  x notes.txt") = cs "grep" :: [cs "x", cs "notes.txt"] ∧
        is_builtin (cs "grep") = false) ∧
      (execute_command os_ok (cs "grep  x notes.txt") ⟨[cs "make"], []⟩).2.history =
        [cs "make"] ++ [join_args (cs "grep" :: [cs "x", cs "notes.txt"])]) ∧
    ((strstr_andand (cs "echo hi > out.txt") = false ∧
        strchr_pipe (cs "echo hi > out.txt") = false ∧
        single_args (cs "echo hi > out.txt") = cs "echo" :: [cs "hi", cs ">", cs "out.txt"] ∧
        is_builtin (cs "echo") = false) ∧
      (execute_command os_ok (cs "echo hi > out.txt") ⟨[cs "make"], []⟩).2.history =
        [cs "make"] ++ [cs "echo hi > out.txt"]) :=
  ⟨⟨⟨by decide, by decide, by decide, by decide⟩,
     ((C14_command_text_recorded os_no_open (cs "echo hi > out.txt") ⟨[cs "make"], []⟩
       (cs "echo") [cs "hi", cs ">", cs "out.txt"] (by decide) (by decide) (by decide)
       ⟨by decide, by decide, by decide⟩ (by decide)).2.2.2.2 (by decide) (by decide)
       (by decide) (by decide) (by decide)).2⟩,
   ⟨⟨by decide, by decide, by decide, by decide⟩,
     (C14_command_text_recorded os_ok (cs "grep  x notes.txt") ⟨[cs "make"], []⟩ (cs "grep")
       [cs "x", cs "notes.txt"] (by decide) (by decide) (by decide)
       ⟨by decide, by decide, by decide⟩ (by decide)).2.1 (by decide) (by decide) (by decide)⟩,
   ⟨⟨by decide, by decide, by decide, by decide⟩,
     (C14_command_text_recorded os_ok (cs "echo hi > out.txt") ⟨[cs "make"], []⟩ (cs "echo")
       [cs "hi", cs ">", cs "out.txt"] (by decide) (by decide) (by decide)
       ⟨by decide, by decide, by decide⟩ (by decide)).2.2.2.1 (by decide) (by decide)
       (by decide)⟩⟩

/-! ## C17: the status of exec_count -/

/-- C17. Without a file name argument exec_count prints its usage text and returns 1; when
the named file cannot be opened it prints the failure and returns 1; in both cases no count is
reported. For every file that can be opened it reports the three counts and returns 0. -/
theorem C17_exec_count_status (os : OS) (args : List CStr) (w : World) :
    (args.get? 1 = none →
      exec_count os args w = (1, w.log (Event.print Output.count_usage))) ∧
    (∀ path, args.get? 1 = some path → os.fopen w.trace path = none →
      exec_count os args w =
        (1, (w.log (Event.fopen path false)).log (Event.print (Output.count_cannot_open path)))) ∧
    (∀ path content, args.get? 1 = some path → os.fopen w.trace path = some content →
      exec_count os args w =
        (0, (w.log (Event.fopen path true)).log
              (Event.print (Output.count_report path (count_file content).lines
                (count_file content).words (count_file content).chars)))) := by
  refine ⟨?_, ?_, ?_⟩
  · intro h
    simp only [exec_count, h]
  · intro path h hf
    simp only [exec_count, h, hf]
  · intro path content h hf
    simp only [exec_count, h, hf]

/-- C17 at `count`, at `count f` with an unreadable file, and at `count f` with the file
`x\n`. -/
theorem C17_exec_count_status_witness :
    ([cs "count"].get? 1 = none ∧ (exec_count os_ok [cs "count"] world_empty).1 = 1) ∧
    (([cs "count", cs "f"].get? 1 = some (cs "f") ∧ os_ok.fopen world_empty.trace (cs "f") = none) ∧
      (exec_count os_ok [cs "count", cs "f"] world_empty).1 = 1) ∧
    (([cs "count", cs "f"].get? 1 = some (cs "f") ∧
        (os_file (bytes_of "x\n")).fopen world_empty.trace (cs "f") = some (bytes_of "x\n")) ∧
      (exec_count (os_file (bytes_of "x\n")) [cs "count", cs "f"] world_empty).1 = 0) :=
  ⟨⟨rfl, congrArg Prod.fst ((C17_exec_count_status os_ok [cs "count"] world_empty).1 rfl)⟩,
   ⟨⟨rfl, rfl⟩, congrArg Prod.fst
      ((C17_exec_count_status os_ok [cs "count", cs "f"] world_empty).2.1 (cs "f") rfl rfl)⟩,
   ⟨⟨rfl, rfl⟩, congrArg Prod.fst
      ((C17_exec_count_status (os_file (bytes_of "x\n")) [cs "count", cs "f"] world_empty).2.2
        (cs "f") (bytes_of "x\n") rfl rfl)⟩⟩

/-! ## C19: a line that is only a redirection -/

/-- C19. For the line `> out.txt` the redirection loop removes both tokens and leaves an
empty vector (`i == 0`, `args[0] == NULL`), on every system. When the file is opened the
child is forked and calls `execvp(args[0], args)` with that NULL program name: it is killed by
a signal, the line is recorded in the history, and execute_command returns -1. When the file
cannot be opened exec_external is called with the empty vector and refuses it with -1. The
test `i == 0` is made only before the redirection loop. -/
theorem C19_redirection_only_line_has_no_program :
    (∀ (os : OS) (w : World),
      (redir_scan os (single_args (cs "> out.txt")).length 0
        ⟨single_args (cs "> out.txt"), none, none⟩ w).1.args = []) ∧
    execute_command os_ok (cs "> out.txt") world_empty =
      (-1, ⟨[cs "> out.txt"],
           [Event.open_file (some (cs "out.txt")) OpenMode.wronly_creat_trunc true,
            Event.persist (cs "> out.txt"),
            Event.spawn ⟨Stream.inherited,
              Stream.file (cs "out.txt") OpenMode.wronly_creat_trunc, []⟩,
            Event.reap WaitStatus.killed]⟩) ∧
    execute_command os_no_open (cs "> out.txt") world_empty =
      (-1, ⟨[], [Event.open_file (some (cs "out.txt")) OpenMode.wronly_creat_trunc false,
                 Event.call_external []]⟩) := by
  refine ⟨?_, ?_, ?_⟩
  · intro os w
    have h : single_args (cs "> out.txt") = [cs ">", cs "out.txt"] := by decide
    rw [h]
    simp [redir_scan]
  · rw [execute_command_no_chain _ _ _ (by decide)]; decide
  · rw [execute_command_no_chain _ _ _ (by decide)]; decide

/-! ## C20: the history buffer -/

theorem add_history_step (command : CStr) (w : World) :
    (w.history.length ≤ MAX_HISTORY →
      (add_command_to_history command w).history.length ≤ MAX_HISTORY) ∧
    (∃ extra, (add_command_to_history command w).history = w.history ++ extra) ∧
    (w.history.length = MAX_HISTORY →
      (add_command_to_history command w).history = w.history) := by
  rw [add_history_history]
  split
  · exact ⟨fun h => h, ⟨[], by simp⟩, fun _ => rfl⟩
  · rename_i hcond
    have hlt : w.history.length < MAX_HISTORY := by
      by_contra hnot
      exact hcond (Or.inr (Or.inr (Or.inr hnot)))
    refine ⟨fun _ => ?_, ⟨[command], rfl⟩, fun hfull => ?_⟩
    · simp only [List.length_append, List.length_singleton]; omega
    · omega

theorem add_all_steps : ∀ (cmds : List CStr) (w : World),
    (w.history.length ≤ MAX_HISTORY → (add_all cmds w).history.length ≤ MAX_HISTORY) ∧
    (∃ extra, (add_all cmds w).history = w.history ++ extra) ∧
    (w.history.length = MAX_HISTORY → (add_all cmds w).history = w.history) := by
  intro cmds
  induction cmds with
  | nil => intro w; exact ⟨fun h => h, ⟨[], by simp [add_all]⟩, fun _ => rfl⟩
  | cons c rest ih =>
    intro w
    obtain ⟨hb1, ⟨e1, he1⟩, hf1⟩ := add_history_step c w
    obtain ⟨hb2, ⟨e2, he2⟩, hf2⟩ := ih (add_command_to_history c w)
    have hunfold : add_all (c :: rest) w = add_all rest (add_command_to_history c w) := rfl
    rw [hunfold]
    refine ⟨fun h => hb2 (hb1 h), ⟨e1 ++ e2, by rw [he2, he1, List.append_assoc]⟩, fun hfull => ?_⟩
    have h1 := hf1 hfull
    rw [hf2 (by rw [h1]; exact hfull), h1]

/-- C20. From the start of the program (empty buffer) and for every sequence of
add_command_to_history calls: the number of entries is at most 50; every further sequence of
calls (a single call included) leaves the entries present before it as the leading part of
the entries after it; once 50 entries are stored every further call leaves the buffer as it
is; and exec_history, which displays the buffer, leaves it as it is. -/
theorem C20_history_append_only_bounded (t : List Event) (cmds more : List CStr) :
    (add_all cmds ⟨[], t⟩).history.length ≤ MAX_HISTORY ∧
    MAX_HISTORY = 50 ∧
    (∃ extra, (add_all more (add_all cmds ⟨[], t⟩)).history
        = (add_all cmds ⟨[], t⟩).history ++ extra) ∧
    ((add_all cmds ⟨[], t⟩).history.length = MAX_HISTORY →
      (add_all more (add_all cmds ⟨[], t⟩)).history = (add_all cmds ⟨[], t⟩).history) ∧
    (∀ args, (exec_history args (add_all cmds ⟨[], t⟩)).2.history
        = (add_all cmds ⟨[], t⟩).history) := by
  have h1 := (add_all_steps cmds ⟨[], t⟩).1 (by simp)
  obtain ⟨_, h2, h3⟩ := add_all_steps more (add_all cmds ⟨[], t⟩)
  exact ⟨h1, rfl, h2, h3, fun args => exec_history_keeps_history args _⟩

set_option maxRecDepth 20000 in
/-- C20 with 50 entries stored: one more call changes nothing. -/
theorem C20_history_append_only_bounded_witness :
    (add_all (List.replicate 50 (cs "ls")) ⟨[], []⟩).history.length = MAX_HISTORY ∧
    (add_all [cs "pwd"] (add_all (List.replicate 50 (cs "ls")) ⟨[], []⟩)).history
      = (add_all (List.replicate 50 (cs "ls")) ⟨[], []⟩).history :=
  ⟨by decide,
   (C20_history_append_only_bounded [] (List.replicate 50 (cs "ls")) [cs "pwd"]).2.2.2.1
     (by decide)⟩

/-! ## C16: the wiring of a pipeline -/

theorem stage_child_wired (os : OS) (tok : Option CStr) (n pi : Nat) (part : CStr) (w : World)
    (hout : cs ">" ∉ strtok_all ' ' part) (hin : cs "<" ∉ strtok_all ' ' part) :
    stage_child os tok n pi (if pi = 0 then none else some (pi - 1)) part w =
      (wired_child n pi part, w) := by
  rw [stage_child_no_operator os tok n pi _ part w hout hin]
  unfold wired_child
  by_cases hn : pi + 1 < n
  · have hn2 : pi < n - 1 := by omega
    by_cases h0 : pi = 0
    · subst h0; simp only [hn, hn2, if_true]
    · simp only [h0, hn, hn2, if_true, if_false]
  · have hn2 : ¬ pi < n - 1 := by omega
    by_cases h0 : pi = 0
    · subst h0; simp only [hn, hn2, if_true, if_false]
    · simp only [h0, hn, hn2, if_false]

/-- The launch loop when every `pipe` and `fork` succeeds and no stage still to launch
carries a redirection operator. -/
theorem pipeline_spawn_wired (os : OS) (tok : Option CStr) (n : Nat)
    (hpipe : ∀ t, os.pipe_ok t = true) (hfork : ∀ t, os.fork_ok t = true) :
    ∀ (rest : List CStr) (pi : Nat) (children : List Child) (w : World),
      pi + rest.length = n →
      (∀ part ∈ rest, cs ">" ∉ strtok_all ' ' part ∧ cs "<" ∉ strtok_all ' ' part) →
      pipeline_spawn os tok n pi rest (if pi = 0 then none else some (pi - 1)) children w =
        (some (children ++ wired_children n pi rest),
         ⟨w.history, w.trace ++ wired_events n pi rest⟩) := by
  intro rest
  induction rest with
  | nil =>
    intro pi children w _ _
    simp [pipeline_spawn, wired_children, wired_events]
  | cons part rest ih =>
    intro pi children w hlen hred
    obtain ⟨hout, hin⟩ := hred part (by simp)
    have hrest : ∀ p ∈ rest, cs ">" ∉ strtok_all ' ' p ∧ cs "<" ∉ strtok_all ' ' p :=
      fun p hp => hred p (List.mem_cons_of_mem _ hp)
    simp only [List.length_cons] at hlen
    by_cases hlt : pi < n - 1
    · have hlt2 : pi + 1 < n := by omega
      have hprev : (some pi : Option Nat) = if pi + 1 = 0 then none else some (pi + 1 - 1) := by
        simp
      unfold pipeline_spawn
      simp only [hlt, hpipe, hfork, if_true, true_and, Bool.true_eq_false, if_false]
      rw [stage_child_wired os tok n pi part _ hout hin]
      simp only
      rw [hprev, ih (pi + 1) _ _ (by omega) hrest]
      simp only [wired_children, wired_events, hlt2, if_true, World.log, List.append_assoc,
        List.singleton_append, List.cons_append, List.nil_append]
    · have hnil : rest = [] := List.length_eq_zero.mp (by omega)
      have hlt2 : ¬ pi + 1 < n := by omega
      subst hnil
      unfold pipeline_spawn
      simp only [hlt, hfork, if_true, false_and, if_false]
      rw [stage_child_wired os tok n pi part _ hout hin]
      simp only [pipeline_spawn, wired_children, wired_events, hlt2, if_false, World.log,
        List.nil_append]

theorem wired_children_length (n : Nat) : ∀ (parts : List CStr) (i : Nat),
    (wired_children n i parts).length = parts.length := by
  intro parts
  induction parts with
  | nil => intro i; rfl
  | cons p rest ih => intro i; simp [wired_children, ih]

theorem wired_children_get (n : Nat) : ∀ (parts : List CStr) (i j : Nat),
    (wired_children n i parts).get? j = (parts.get? j).map (wired_child n (i + j)) := by
  intro parts
  induction parts with
  | nil => intro i j; simp [wired_children]
  | cons p rest ih =>
    intro i j
    cases j with
    | zero => simp [wired_children]
    | succ j =>
      simp only [wired_children, List.get?_cons_succ, ih]
      rw [show i + 1 + j = i + (j + 1) by omega]

/-- Among the wired children of the stages from `i` on, exactly the child of stage `k` writes
to pipe `k`, when stage `k` is one of them and is not the last of the `n` stages. -/
theorem wired_children_writers (n k : Nat) : ∀ (parts : List CStr) (i : Nat),
    (wired_children n i parts).countP (fun c => c.stdout = Stream.pipe_write k) =
      if i ≤ k ∧ k < i + parts.length ∧ k + 1 < n then 1 else 0 := by
  intro parts
  induction parts with
  | nil =>
    intro i
    have hc : ¬ (i ≤ k ∧ k < i + 0 ∧ k + 1 < n) := by omega
    simp only [wired_children, List.countP_nil, List.length_nil, hc, if_false]
  | cons p rest ih =>
    intro i
    simp only [wired_children, List.countP_cons, ih, List.length_cons]
    by_cases hik : i = k
    · subst hik
      by_cases hn : i + 1 < n
      · simp [wired_child, hn]
      · simp [wired_child, hn]
    · have hhead : ¬ ((wired_child n i p).stdout = Stream.pipe_write k) := by
        unfold wired_child
        by_cases hn : i + 1 < n
        · simp [hn, hik]
        · simp [hn]
      simp only [hhead, decide_False, Bool.false_eq_true, if_false, Nat.add_zero]
      by_cases hc : i + 1 ≤ k ∧ k < i + 1 + rest.length ∧ k + 1 < n
      · have hc2 : i ≤ k ∧ k < i + (rest.length + 1) ∧ k + 1 < n := by omega
        simp only [hc, hc2, if_true]
      · have hc2 : ¬ (i ≤ k ∧ k < i + (rest.length + 1) ∧ k + 1 < n) := by omega
        simp only [hc, hc2, if_false]

/-- Among the wired children of the stages from `i` on, exactly the child of stage `k + 1`
reads from pipe `k`, when that stage is one of them. -/
theorem wired_children_readers (n k : Nat) : ∀ (parts : List CStr) (i : Nat),
    (wired_children n i parts).countP (fun c => c.stdin = Stream.pipe_read k) =
      if i ≤ k + 1 ∧ k + 1 < i + parts.length then 1 else 0 := by
  intro parts
  induction parts with
  | nil =>
    intro i
    have hc : ¬ (i ≤ k + 1 ∧ k + 1 < i + 0) := by omega
    simp only [wired_children, List.countP_nil, List.length_nil, hc, if_false]
  | cons p rest ih =>
    intro i
    simp only [wired_children, List.countP_cons, ih, List.length_cons]
    by_cases hik : i = k + 1
    · subst hik
      simp [wired_child]
    · have hhead : ¬ ((wired_child n i p).stdin = Stream.pipe_read k) := by
        unfold wired_child
        by_cases h0 : i = 0
        · simp [h0]
        · simp only [h0, if_false, Stream.pipe_read.injEq]
          omega
      simp only [hhead, decide_False, Bool.false_eq_true, if_false, Nat.add_zero]
      by_cases hc : i + 1 ≤ k + 1 ∧ k + 1 < i + 1 + rest.length
      · have hc2 : i ≤ k + 1 ∧ k + 1 < i + (rest.length + 1) := by omega
        simp only [hc, hc2, if_true]
      · have hc2 : ¬ (i ≤ k + 1 ∧ k + 1 < i + (rest.length + 1)) := by omega
        simp only [hc, hc2, if_false]

theorem wired_events_pipes (n : Nat) : ∀ (parts : List CStr) (i : Nat),
    i + parts.length = n →
    (wired_events n i parts).filterMap Event.pipe_id = List.range' i (parts.length - 1) := by
  intro parts
  induction parts with
  | nil => intro i _; simp [wired_events]
  | cons p rest ih =>
    intro i hlen
    simp only [List.length_cons] at hlen
    cases rest with
    | nil =>
      have hn : ¬ i + 1 < n := by simp only [List.length_nil] at hlen; omega
      simp [wired_events, hn, Event.pipe_id]
    | cons q rest2 =>
      have hn : i + 1 < n := by simp only [List.length_cons] at hlen; omega
      have hih := ih (i + 1) (by omega)
      simp only [List.length_cons, Nat.add_sub_cancel] at hih ⊢
      rw [wired_events]
      simp only [hn, if_true, List.singleton_append, List.filterMap_cons, Event.pipe_id, hih]
      rw [List.range'_succ]

theorem wired_events_children (n : Nat) : ∀ (parts : List CStr) (i : Nat),
    (wired_events n i parts).filterMap Event.spawned = wired_children n i parts := by
  intro parts
  induction parts with
  | nil => intro i; simp [wired_events, wired_children]
  | cons p rest ih =>
    intro i
    rw [wired_events, wired_children]
    by_cases hn : i + 1 < n
    · simp [hn, Event.pipe_id, Event.spawned, ih]
    · simp [hn, Event.spawned, ih]

/-- The wait loop adds only `reap` effects. -/
theorem pipeline_wait_only_reaps (os : OS) : ∀ (children : List Child) (last : Int) (w : World),
    only_adds (fun e => ∃ st, e = Event.reap st) w (pipeline_wait os children last w).2 := by
  intro children
  induction children with
  | nil => intro last w; exact only_adds_refl _ w
  | cons c rest ih =>
    intro last w
    unfold pipeline_wait
    simp only
    split
    · exact only_adds_trans (only_adds_log w _ ⟨_, rfl⟩) (ih _ _)
    · exact only_adds_trans (only_adds_log w _ ⟨_, rfl⟩) (ih _ _)

theorem filterMap_reaps (evs : List Event) (h : ∀ e ∈ evs, ∃ st, e = Event.reap st) :
    evs.filterMap Event.pipe_id = [] ∧ evs.filterMap Event.spawned = [] := by
  induction evs with
  | nil => exact ⟨rfl, rfl⟩
  | cons e rest ih =>
    obtain ⟨st, hst⟩ := h e (by simp)
    obtain ⟨h1, h2⟩ := ih (fun e he => h e (List.mem_cons_of_mem _ he))
    subst hst
    exact ⟨by simp [Event.pipe_id, h1], by simp [Event.spawned, h2]⟩

/-- The new effects of a pipeline in which every `pipe` and `fork` succeeds and no stage
carries a redirection operator: the launch effects of its stages, then `reap` effects. -/
theorem pipeline_new_events (os : OS) (cmd : CStr) (w : World)
    (h1 : strstr_andand cmd = false) (h2 : strchr_pipe cmd = true)
    (hpipe : ∀ t, os.pipe_ok t = true) (hfork : ∀ t, os.fork_ok t = true)
    (hred : ∀ part ∈ pipeline_stages cmd,
      cs ">" ∉ strtok_all ' ' part ∧ cs "<" ∉ strtok_all ' ' part) :
    ∃ reaps, (∀ e ∈ reaps, ∃ st, e = Event.reap st) ∧
      new_events w (execute_command os cmd w).2 =
        wired_events (pipeline_stages cmd).length 0 (pipeline_stages cmd) ++ reaps := by
  have hspawn := pipeline_spawn_wired os (pipe_collect (strtok_all '|' cmd) []).2
    (pipeline_stages cmd).length hpipe hfork (pipeline_stages cmd) 0 [] w (by simp) hred
  have hnone : (if (0 : Nat) = 0 then (none : Option Nat) else some (0 - 1)) = none := rfl
  rw [hnone] at hspawn
  have hcmd : execute_command os cmd w =
      pipeline_wait os (wired_children (pipeline_stages cmd).length 0 (pipeline_stages cmd)) 0
        ⟨w.history, w.trace ++ wired_events (pipeline_stages cmd).length 0 (pipeline_stages cmd)⟩ := by
    rw [execute_command_no_chain os cmd w h1]
    unfold execute_no_chain
    simp only [h2, if_true]
    unfold execute_pipeline
    have hparts : (pipe_collect (strtok_all '|' cmd) []).1 = pipeline_stages cmd := rfl
    simp only [hparts, hspawn, List.nil_append]
  obtain ⟨reaps, ht, hp⟩ := pipeline_wait_only_reaps os
    (wired_children (pipeline_stages cmd).length 0 (pipeline_stages cmd)) 0
    ⟨w.history, w.trace ++ wired_events (pipeline_stages cmd).length 0 (pipeline_stages cmd)⟩
  refine ⟨reaps, hp, ?_⟩
  rw [hcmd]
  exact new_events_of_trace w _ _ (by rw [ht, List.append_assoc])

/-- C16. For every pipeline (a line with a pipe character and no chain operator) of `N`
stages in which every `pipe` and `fork` call succeeds and no stage carries a redirection
operator: `N` is at most 32; exactly the `N - 1` pipes numbered `0 .. N - 2` are created and
exactly `N` children are spawned, in stage order; stage `i` (not the last) has its standard
output on the write end of pipe `i` and stage `i + 1` has its standard input on the read end of
pipe `i`; each pipe has exactly one child writing to it and one reading from it; the first
stage keeps the shell's standard input and the last stage the shell's standard output. -/
theorem C16_pipeline_wiring (os : OS) (cmd : CStr) (w : World)
    (h1 : strstr_andand cmd = false) (h2 : strchr_pipe cmd = true)
    (hpipe : ∀ t, os.pipe_ok t = true) (hfork : ∀ t, os.fork_ok t = true)
    (hred : ∀ part ∈ pipeline_stages cmd,
      cs ">" ∉ strtok_all ' ' part ∧ cs "<" ∉ strtok_all ' ' part) :
    (pipeline_stages cmd).length ≤ MAX_PARTS ∧
    (new_events w (execute_command os cmd w).2).filterMap Event.pipe_id
      = List.range ((pipeline_stages cmd).length - 1) ∧
    (new_events w (execute_command os cmd w).2).filterMap Event.spawned
      = wired_children (pipeline_stages cmd).length 0 (pipeline_stages cmd) ∧
    (wired_children (pipeline_stages cmd).length 0 (pipeline_stages cmd)).length
      = (pipeline_stages cmd).length ∧
    (∀ i, i + 1 < (pipeline_stages cmd).length →
      (∃ c, (wired_children (pipeline_stages cmd).length 0 (pipeline_stages cmd)).get? i = some c ∧
        c.stdout = Stream.pipe_write i) ∧
      (∃ c, (wired_children (pipeline_stages cmd).length 0 (pipeline_stages cmd)).get? (i + 1)
          = some c ∧ c.stdin = Stream.pipe_read i) ∧
      (wired_children (pipeline_stages cmd).length 0 (pipeline_stages cmd)).countP
        (fun c => c.stdout = Stream.pipe_write i) = 1 ∧
      (wired_children (pipeline_stages cmd).length 0 (pipeline_stages cmd)).countP
        (fun c => c.stdin = Stream.pipe_read i) = 1) ∧
    (∀ c, (wired_children (pipeline_stages cmd).length 0 (pipeline_stages cmd)).head? = some c →
      c.stdin = Stream.inherited) ∧
    (∀ c, (wired_children (pipeline_stages cmd).length 0 (pipeline_stages cmd)).getLast? = some c →
      c.stdout = Stream.inherited) := by
  obtain ⟨reaps, hreaps, hev⟩ := pipeline_new_events os cmd w h1 h2 hpipe hfork hred
  obtain ⟨hr1, hr2⟩ := filterMap_reaps reaps hreaps
  refine ⟨?_, ?_, ?_, wired_children_length _ _ _, ?_, ?_, ?_⟩
  · rw [pipeline_stages_eq, List.length_take]; omega
  · rw [hev, List.filterMap_append, hr1, List.append_nil,
      wired_events_pipes _ _ 0 (by simp), List.range_eq_range']
  · rw [hev, List.filterMap_append, hr2, List.append_nil, wired_events_children]
  · intro i hi
    have hi0 : i < (pipeline_stages cmd).length := by omega
    refine ⟨?_, ?_, ?_, ?_⟩
    · refine ⟨wired_child (pipeline_stages cmd).length i ((pipeline_stages cmd).get ⟨i, hi0⟩), ?_, ?_⟩
      · rw [wired_children_get, List.get?_eq_get hi0]; simp
      · simp [wired_child, hi]
    · refine ⟨wired_child (pipeline_stages cmd).length (i + 1)
        ((pipeline_stages cmd).get ⟨i + 1, hi⟩), ?_, ?_⟩
      · rw [wired_children_get, List.get?_eq_get hi]; simp
      · simp [wired_child]
    · rw [wired_children_writers]
      have hc : 0 ≤ i ∧ i < 0 + (pipeline_stages cmd).length ∧ i + 1 < (pipeline_stages cmd).length := by
        omega
      simp only [hc, and_self, if_true]
    · rw [wired_children_readers]
      have hc : 0 ≤ i + 1 ∧ i + 1 < 0 + (pipeline_stages cmd).length := by omega
      simp only [hc, and_self, if_true]
  · intro c hc
    cases hst : pipeline_stages cmd with
    | nil => rw [hst] at hc; simp [wired_children] at hc
    | cons p rest =>
      rw [hst] at hc
      simp only [wired_children, List.head?_cons, Option.some.injEq] at hc
      rw [← hc]
      simp [wired_child]
  · intro c hc
    rw [List.getLast?_eq_getElem?, ← List.get?_eq_getElem?, wired_children_length,
      wired_children_get] at hc
    cases hget : (pipeline_stages cmd).get? ((pipeline_stages cmd).length - 1) with
    | none => rw [hget] at hc; simp at hc
    | some p =>
      rw [hget] at hc
      simp only [Option.map_some', Option.some.injEq, Nat.zero_add] at hc
      have hpos : 0 < (pipeline_stages cmd).length := by
        by_contra hn
        have h0 : pipeline_stages cmd = [] := List.length_eq_zero.mp (by omega)
        rw [h0] at hget
        simp at hget
      have hn : ¬ ((pipeline_stages cmd).length - 1 + 1 < (pipeline_stages cmd).length) := by omega
      rw [← hc]
      simp only [wired_child, hn, if_false]

/-- C16 at the pipeline `a | b | c`. -/
theorem C16_pipeline_wiring_witness :
    (strstr_andand (cs "a | b | c") = false ∧ strchr_pipe (cs "a | b | c") = true ∧
      (∀ t, os_ok.pipe_ok t = true) ∧ (∀ t, os_ok.fork_ok t = true) ∧
      (∀ part ∈ pipeline_stages (cs "a | b | c"),
        cs ">" ∉ strtok_all ' ' part ∧ cs "<" ∉ strtok_all ' ' part)) ∧
    (pipeline_stages (cs "a | b | c")).length = 3 ∧
    (new_events world_empty (execute_command os_ok (cs "a | b | c") world_empty).2).filterMap
        Event.pipe_id = List.range ((pipeline_stages (cs "a | b | c")).length - 1) ∧
    (new_events world_empty (execute_command os_ok (cs "a | b | c") world_empty).2).filterMap
        Event.spawned =
      wired_children (pipeline_stages (cs "a | b | c")).length 0
        (pipeline_stages (cs "a | b | c")) ∧
    wired_children 3 0 [cs "a", cs "b", cs "c"] =
      [⟨Stream.inherited, Stream.pipe_write 0, [cs "a"]⟩,
       ⟨Stream.pipe_read 0, Stream.pipe_write 1, [cs "b"]⟩,
       ⟨Stream.pipe_read 1, Stream.inherited, [cs "c"]⟩] :=
  ⟨⟨by decide, by decide, fun _ => rfl, fun _ => rfl, by decide⟩, by decide,
   (C16_pipeline_wiring os_ok (cs "a | b | c") world_empty (by decide) (by decide)
      (fun _ => rfl) (fun _ => rfl) (by decide)).2.1,
   (C16_pipeline_wiring os_ok (cs "a | b | c") world_empty (by decide) (by decide)
      (fun _ => rfl) (fun _ => rfl) (by decide)).2.2.1,
   by decide⟩

/-! ## C15: right-recursive evaluation of a chain -/

theorem chain_loop_last_piece (run : CStr → World → Int × World) (p : CStr) (w : World) :
    chain_loop run (if 0 < (chain_trim p).length then [chain_trim p] else []) 0 w =
      run_piece run p w := by
  unfold run_piece
  by_cases h : 0 < (chain_trim p).length
  · simp only [h, if_true, chain_loop]
    split <;> rfl
  · simp only [h, if_false, chain_loop]

theorem chain_loop_first_piece (run : CStr → World → Int × World) (p : CStr) (ps : List CStr)
    (w : World) :
    chain_loop run ((if 0 < (chain_trim p).length then [chain_trim p] else []) ++ ps) 0 w =
      if (run_piece run p w).1 ≠ 0 then run_piece run p w
      else chain_loop run ps 0 (run_piece run p w).2 := by
  unfold run_piece
  by_cases h : 0 < (chain_trim p).length
  · simp only [h, if_true, List.singleton_append, chain_loop]
    by_cases hr : (run (chain_trim p) w).1 = 0
    · simp only [hr, ne_eq, not_true_eq_false, if_false]
    · simp only [hr, ne_eq, not_false_eq_true, if_true]
  · simp only [h, if_false, List.nil_append, ne_eq, not_true_eq_false]

theorem chain_pieces_end (cur : CStr) :
    chain_pieces cur [] = if 0 < (chain_trim cur).length then [chain_trim cur] else [] := by
  unfold chain_pieces split_at_andand
  by_cases h : 0 < (chain_trim cur).length <;> simp [h]

theorem chain_pieces_one (cur : CStr) (c : Char) :
    chain_pieces cur [c] =
      if 0 < (chain_trim (cur ++ [c])).length then [chain_trim (cur ++ [c])] else [] := by
  unfold chain_pieces split_at_andand
  by_cases h : 0 < (chain_trim (cur ++ [c])).length <;> simp [h]

theorem chain_pieces_operator (cur rest : CStr) :
    chain_pieces cur ('&' :: '&' :: rest) =
      (if 0 < (chain_trim cur).length then [chain_trim cur] else []) ++ chain_pieces [] rest := by
  unfold chain_pieces
  rw [split_at_andand]
  by_cases h : 0 < (chain_trim cur).length <;> simp [h]

theorem chain_pieces_other (cur rest : CStr) (c1 c2 : Char) (h : ¬ (c1 = '&' ∧ c2 = '&')) :
    chain_pieces cur (c1 :: c2 :: rest) = chain_pieces (cur ++ [c1]) (c2 :: rest) := by
  unfold chain_pieces
  rw [split_at_andand]
  simp only [h, if_false]

/-- Right-recursive evaluation is the chain loop over the pieces cut at the chain operators. -/
theorem eval_right_recursive_eq (run : CStr → World → Int × World) :
    ∀ (n : Nat) (s : CStr), s.length ≤ n → ∀ (cur : CStr) (w : World),
      eval_right_recursive run cur s w = chain_loop run (chain_pieces cur s) 0 w := by
  intro n
  induction n with
  | zero =>
    intro s hs cur w
    have : s = [] := List.length_eq_zero.mp (Nat.le_zero.mp hs)
    subst this
    rw [eval_right_recursive, chain_pieces_end, chain_loop_last_piece]
  | succ n ih =>
    intro s hs cur w
    match s, hs with
    | [], _ => rw [eval_right_recursive, chain_pieces_end, chain_loop_last_piece]
    | [c], _ => rw [eval_right_recursive, chain_pieces_one, chain_loop_last_piece]
    | c1 :: c2 :: rest, hs =>
      simp only [List.length_cons] at hs
      rw [eval_right_recursive]
      by_cases h : c1 = '&' ∧ c2 = '&'
      · obtain ⟨hc1, hc2⟩ := h
        subst hc1; subst hc2
        simp only [and_self, if_true]
        rw [chain_pieces_operator, chain_loop_first_piece, ih rest (by omega)]
      · simp only [h, if_false]
        rw [chain_pieces_other cur rest c1 c2 h]
        exact ih (c2 :: rest) (by simp only [List.length_cons]; omega) _ _

/-- When every ampersand belongs to a pair, the tokens `strtok_r` cuts at ampersands are the
pieces between chain operators that are not empty. -/
theorem strtok_scan_eq_split_andand :
    ∀ (n : Nat) (s : CStr), s.length ≤ n → amp_paired s = true → ∀ (cur : CStr),
      strtok_scan '&' cur s = (split_at_andand cur s).filter (fun p => p ≠ []) := by
  intro n
  induction n with
  | zero =>
    intro s hs _ cur
    have : s = [] := List.length_eq_zero.mp (Nat.le_zero.mp hs)
    subst this
    by_cases hcur : cur = [] <;> simp [strtok_scan, split_at_andand, hcur]
  | succ n ih =>
    intro s hs hp cur
    match s, hs, hp with
    | [], _, _ => by_cases hcur : cur = [] <;> simp [strtok_scan, split_at_andand, hcur]
    | [c], _, hp =>
      have hc : ¬ c = '&' := by simpa [amp_paired] using hp
      simp [strtok_scan, split_at_andand, hc]
    | c1 :: c2 :: rest, hs, hp =>
      simp only [List.length_cons] at hs
      by_cases h1 : c1 = '&'
      · subst h1
        have hp2 : c2 = '&' ∧ amp_paired rest = true := by
          simpa [amp_paired] using hp
        obtain ⟨hc2, hrest⟩ := hp2
        subst hc2
        have hih := ih rest (by omega) hrest []
        rw [split_at_andand]
        simp only [and_self, if_true]
        have hstep : strtok_scan '&' [] ('&' :: rest) = strtok_scan '&' [] rest := by
          rw [strtok_scan]; simp
        by_cases hcur : cur = []
        · subst hcur
          rw [strtok_scan]
          simp only [if_true, hstep, hih]
          simp
        · rw [strtok_scan]
          simp only [if_true, hcur, if_false, hstep, hih]
          simp [hcur]
      · have hp2 : amp_paired (c2 :: rest) = true := by
          simpa [amp_paired, h1] using hp
        rw [split_at_andand, strtok_scan]
        simp only [h1, false_and, if_false]
        exact ih (c2 :: rest) (by simp only [List.length_cons]; omega) hp2 _

theorem chain_trim_nil : chain_trim [] = [] := rfl

theorem chain_collect_eq : ∀ (toks parts : List CStr), parts.length ≤ MAX_PARTS →
    chain_collect toks parts =
      (parts ++ (toks.map chain_trim).filter (fun t => 0 < t.length)).take MAX_PARTS := by
  intro toks
  induction toks with
  | nil =>
    intro parts h
    simp only [chain_collect, List.map_nil, List.filter_nil, List.append_nil]
    exact (List.take_of_length_le h).symm
  | cons t rest ih =>
    intro parts h
    unfold chain_collect
    by_cases hlt : parts.length < MAX_PARTS
    · simp only [hlt, if_true]
      by_cases ht : 0 < (chain_trim t).length
      · simp only [ht, if_true]
        rw [ih _ (by simp only [List.length_append, List.length_singleton]; omega)]
        simp [ht]
      · simp only [ht, if_false]
        rw [ih _ h]
        simp [ht]
    · have heq : parts.length = MAX_PARTS := by omega
      simp only [hlt, if_false]
      rw [← heq, List.take_left]

theorem filter_trim_of_nonempty : ∀ (l : List CStr),
    ((l.filter (fun p => p ≠ [])).map chain_trim).filter (fun t => 0 < t.length) =
      (l.map chain_trim).filter (fun t => 0 < t.length) := by
  intro l
  induction l with
  | nil => rfl
  | cons a rest ih =>
    by_cases ha : a = []
    · subst ha
      rw [List.filter_cons_of_neg (by simp), List.map_cons, chain_trim_nil,
        List.filter_cons_of_neg (by simp)]
      exact ih
    · rw [List.filter_cons_of_pos (by simp [ha]), List.map_cons, List.map_cons]
      by_cases ht : 0 < (chain_trim a).length
      · rw [List.filter_cons_of_pos (by simp [ht]), List.filter_cons_of_pos (by simp [ht]), ih]
      · rw [List.filter_cons_of_neg (by simp [ht]), List.filter_cons_of_neg (by simp [ht]), ih]

/-- When every ampersand belongs to a pair and there are at most 32 sub-commands, the
sub-commands execute_command evaluates are the pieces cut at the chain operators. -/
theorem chain_parts_eq_pieces (cmd : CStr) (hp : amp_paired cmd = true)
    (hlen : (chain_pieces [] cmd).length ≤ MAX_PARTS) :
    chain_parts cmd = chain_pieces [] cmd := by
  unfold chain_parts strtok_all
  rw [chain_collect_eq _ _ (by simp), strtok_scan_eq_split_andand cmd.length cmd (le_refl _) hp,
    List.nil_append, filter_trim_of_nonempty]
  exact List.take_of_length_le hlen

/-- Right-recursive evaluation of a line with a chain operator, when no piece holds a chain
operator itself: the chain loop over the pieces, each run by the code for lines without a
chain operator. -/
theorem eval_line_right_recursive_pieces (os : OS) (cmd : CStr) (w : World)
    (h : strstr_andand cmd = true)
    (hpieces : ∀ p ∈ chain_pieces [] cmd, strstr_andand p = false) :
    eval_line_right_recursive (execute_command os) cmd w =
      chain_loop (execute_no_chain os) (chain_pieces [] cmd) 0 w := by
  unfold eval_line_right_recursive
  simp only [h, if_true]
  rw [eval_right_recursive_eq (execute_command os) cmd.length cmd (le_refl _)]
  apply chain_loop_congr
  intro p hp w1
  exact execute_command_no_chain os p w1 (hpieces p hp)

set_option maxRecDepth 100000 in
/-- C15, counterexample. On the line `a & b && c` right-recursive evaluation runs the two
commands `a & b` and `c`, while execute_command runs the three commands `a`, `b`, `c`; on a
line of 33 sub-commands right-recursive evaluation runs all 33, while execute_command runs
the first 32. -/
theorem C15_right_recursion_differs :
    (eval_line_right_recursive (execute_command os_ok) (cs "a & b && c") world_empty).2.history
      = [cs "a & b", cs "c"] ∧
    (execute_command os_ok (cs "a & b && c") world_empty).2.history
      = [cs "a", cs "b", cs "c"] ∧
    (eval_line_right_recursive (execute_command os_ok) line_33_links world_empty).2.history.length
      = 33 ∧
    (execute_command os_ok line_33_links world_empty).2.history.length = 32 := by
  refine ⟨?_, ?_, ?_, ?_⟩
  · rw [eval_line_right_recursive_pieces os_ok _ _ (by decide) (by decide)]; decide
  · rw [execute_command_chain _ _ _ (by decide)]; decide
  · rw [eval_line_right_recursive_pieces os_ok _ _ (by decide) (by decide)]; decide
  · rw [execute_command_chain _ _ _ (by decide)]; decide

/-- C15, amended. For every command line in which every ampersand belongs to a pair and
that has at most 32 sub-commands, evaluating it right-recursively (split at the first chain
operator, run the left part, and only if it returns 0 evaluate the remaining text the same
way, each part trimmed and dropped when empty as execute_command does) has the same result
as execute_command: the same status and the same world, hence the same sub-commands run in
the same order. -/
theorem C15_right_recursion_agrees (os : OS) (cmd : CStr) (w : World)
    (hp : amp_paired cmd = true) (hlen : (chain_pieces [] cmd).length ≤ MAX_PARTS) :
    eval_line_right_recursive (execute_command os) cmd w = execute_command os cmd w := by
  unfold eval_line_right_recursive
  by_cases h : strstr_andand cmd = true
  · simp only [h, if_true]
    rw [eval_right_recursive_eq (execute_command os) cmd.length cmd (le_refl _),
      execute_command_eq os cmd w]
    simp only [h, if_true]
    rw [chain_parts_eq_pieces cmd hp hlen]
  · rw [if_neg h]

/-- C15 (amended) at the line `mkdir d && false && ls`, where `false` exits with 1. -/
theorem C15_right_recursion_agrees_witness :
    (amp_paired (cs "mkdir d && false && ls") = true ∧
      (chain_pieces [] (cs "mkdir d && false && ls")).length ≤ MAX_PARTS) ∧
    eval_line_right_recursive (execute_command os_false) (cs "mkdir d && false && ls")
        world_empty =
      execute_command os_false (cs "mkdir d && false && ls") world_empty :=
  ⟨⟨by decide, by decide⟩,
   C15_right_recursion_agrees os_false (cs "mkdir d && false && ls") world_empty
     (by decide) (by decide)⟩

/-! ## C21: the status of exec_cd -/

/-- With a directory argument exec_cd returns 0, whatever `chdir` answers. -/
theorem exec_cd_with_argument (os : OS) (args : List CStr) (w : World) (dir : CStr)
    (h : args.get? 1 = some dir) : (exec_cd os args w).1 = 0 := by
  simp only [exec_cd, h]
  split <;> rfl

/-- Without a directory argument exec_cd returns 1 when HOME is unset or `chdir` to it fails,
and 0 otherwise. -/
theorem exec_cd_without_argument (os : OS) (args : List CStr) (w : World)
    (h : args.get? 1 = none) :
    (exec_cd os args w).1 =
      match os.getenv_home w.trace with
      | none => 1
      | some path => if os.chdir_ok w.trace path then 0 else 1 := by
  simp only [exec_cd, h]
  split
  · rfl
  · split <;> rfl

/-- A line `cd dir ...` without chain operator and pipe returns 0. -/
theorem execute_command_cd_with_argument (os : OS) (c : CStr) (w : World) (dir : CStr)
    (rest : List CStr) (h1 : strstr_andand c = false) (h2 : strchr_pipe c = false)
    (h3 : single_args c = cs "cd" :: dir :: rest) :
    (execute_command os c w).1 = 0 := by
  rw [execute_command_no_chain os c w h1]
  unfold execute_no_chain
  simp only [h2, Bool.false_eq_true, if_false]
  rw [execute_single_builtin os c w (cs "cd") (dir :: rest) h3 (by decide)]
  have hbr : builtin_branch (cs "cd") = some Builtin.cd := by decide
  simp only [exec_builtin, hbr, run_builtin]
  exact exec_cd_with_argument os _ _ dir rfl

/-- C21. The function exec_cd returns 0 for every call with a directory argument, whether or
not `chdir` succeeds, and otherwise 0 or 1; it returns 1 exactly when there is no argument and
HOME is unset or `chdir` to HOME fails. So in a chain whose first sub-command is `cd dir`
(with or without further tokens) that sub-command returns 0 and the chain loop goes on with
the remaining sub-commands in the world the `cd` left; with one more sub-command the result of
the line is the result of running that sub-command. -/
theorem C21_cd_status (os : OS) :
    (∀ (args : List CStr) (w : World) (dir : CStr), args.get? 1 = some dir →
      (exec_cd os args w).1 = 0) ∧
    (∀ (args : List CStr) (w : World),
      (exec_cd os args w).1 = 0 ∨ (exec_cd os args w).1 = 1) ∧
    (∀ (args : List CStr) (w : World),
      (exec_cd os args w).1 = 1 ↔
        (args.get? 1 = none ∧
          (os.getenv_home w.trace = none ∨
            ∃ path, os.getenv_home w.trace = some path ∧ os.chdir_ok w.trace path = false))) ∧
    (∀ (cmd : CStr) (w : World) (c1 dir : CStr) (ps rest : List CStr),
      strstr_andand cmd = true → chain_parts cmd = c1 :: ps → strchr_pipe c1 = false →
      single_args c1 = cs "cd" :: dir :: rest →
      (execute_command os c1 w).1 = 0 ∧
      execute_command os cmd w =
        chain_loop (execute_command os) ps 0 (execute_command os c1 w).2 ∧
      (∀ c2, ps = [c2] →
        execute_command os cmd w = execute_command os c2 (execute_command os c1 w).2)) := by
  refine ⟨fun args w dir h => exec_cd_with_argument os args w dir h, ?_, ?_, ?_⟩
  · intro args w
    cases h : args.get? 1 with
    | some dir => exact Or.inl (exec_cd_with_argument os args w dir h)
    | none =>
      rw [exec_cd_without_argument os args w h]
      cases os.getenv_home w.trace with
      | none => exact Or.inr rfl
      | some path =>
        cases hc : os.chdir_ok w.trace path with
        | true => left; simp [hc]
        | false => right; simp [hc]
  · intro args w
    cases h : args.get? 1 with
    | some dir =>
      rw [exec_cd_with_argument os args w dir h]
      constructor
      · intro h01; exact absurd h01 (by decide)
      · rintro ⟨hnone, _⟩; exact absurd hnone (by simp)
    | none =>
      rw [exec_cd_without_argument os args w h]
      cases hh : os.getenv_home w.trace with
      | none => simp
      | some path =>
        cases hc : os.chdir_ok w.trace path with
        | true => simp [hc]
        | false => simp [hc]
  · intro cmd w c1 dir ps rest hchain hparts hpipe hargs
    have hmem : c1 ∈ chain_parts cmd := by rw [hparts]; simp
    have hno : strstr_andand c1 = false :=
      strstr_andand_false_of_no_amp c1 (chain_parts_no_amp cmd c1 hmem)
    have hzero := execute_command_cd_with_argument os c1 w dir rest hno hpipe hargs
    have hloop : execute_command os cmd w =
        chain_loop (execute_command os) ps 0 (execute_command os c1 w).2 := by
      rw [execute_command_eq os cmd w]
      simp only [hchain, if_true, hparts, chain_loop, hzero, ne_eq, not_true_eq_false, if_false]
    refine ⟨hzero, hloop, ?_⟩
    intro c2 hps
    rw [hloop, hps]
    simp only [chain_loop]
    split <;> rfl

/-- C21 at the line `cd /missing && ls` on a system where no directory can be entered: the
`cd` returns 0 and `ls` runs. -/
theorem C21_cd_status_witness :
    (strstr_andand (cs "cd /missing && ls") = true ∧
      chain_parts (cs "cd /missing && ls") = cs "cd /missing" :: [cs "ls"] ∧
      strchr_pipe (cs "cd /missing") = false ∧
      single_args (cs "cd /missing") = cs "cd" :: cs "/missing" :: []) ∧
    (execute_command os_no_chdir (cs "cd /missing") world_empty).1 = 0 ∧
    execute_command os_no_chdir (cs "cd /missing && ls") world_empty =
      execute_command os_no_chdir (cs "ls")
        (execute_command os_no_chdir (cs "cd /missing") world_empty).2 :=
  ⟨⟨by decide, by decide, by decide, by decide⟩,
   ((C21_cd_status os_no_chdir).2.2.2 (cs "cd /missing && ls") world_empty (cs "cd /missing")
      (cs "/missing") [cs "ls"] [] (by decide) (by decide) (by decide) (by decide)).1,
   ((C21_cd_status os_no_chdir).2.2.2 (cs "cd /missing && ls") world_empty (cs "cd /missing")
      (cs "/missing") [cs "ls"] [] (by decide) (by decide) (by decide) (by decide)).2.2
      (cs "ls") rfl⟩

/-- The run of `cd /missing && ls` on a system where no directory can be entered, effect by
effect: the failed `chdir`, its message, then `ls`. -/
theorem cd_missing_then_ls_run :
    execute_command os_no_chdir (cs "cd /missing && ls") world_empty =
      (0, ⟨[cs "ls"],
           [Event.call_builtin [cs "cd", cs "/missing"],
            Event.chdir (cs "/missing") false, Event.print Output.cd_perror,
            Event.call_external [cs "ls"], Event.persist (cs "ls"),
            Event.spawn ⟨Stream.inherited, Stream.inherited, [cs "ls"]⟩,
            Event.reap (WaitStatus.exited 0)]⟩) := by
  rw [execute_command_chain _ _ _ (by decide)]; decide

end Shell
